import Mathlib

/-!
# Verification of the oneAPI migration samples: Jacobi solver and separable convolution

This development is a shallow embedding, over exact rational arithmetic, of the two
numerical kernels of the repository:

* `jacobi.dp.cpp` — the block-parallel Jacobi iterative solver (`JacobiMethod`,
  `finalError`, the reference driver `JacobiMethodGpu` and its two graph-based
  variants), and
* `convolutionSeparable.dp.cpp` — the separable row/column convolution passes
  (`convolutionRowsKernel` / `convolutionColumnsKernel` and their host wrappers
  `convolutionRowsGPU` / `convolutionColumnsGPU`).

Device buffers are modelled as total functions `ℕ → ℚ` (for the solver) indexed by
the flat element index; within each kernel dispatch, a loop of parallel writes to
pairwise distinct locations is modelled as a sequential fold of `Function.update`
steps, and an intra-group collective reduction (pairwise-halving shuffle reduce)
is modelled by the exact sum it computes, which is its value in exact arithmetic.
The matrix dimension `N_ROWS` of the solver and the convolution constant
`KERNEL_RADIUS` come from headers that are not part of the repository
(`jacobi.h`, `convolutionSeparable_common.h`); both are treated as parameters
(`n`, resp. `R`) of the embedding.  The migration tool recorded `N_ROWS = 512`
in the generated local-accessor size comments; every theorem below is proved for
all `n`, hence in particular for `n = 512`.
-/

/-! ## Jacobi solver: constants and global-memory state -/

/-- `ROWS_PER_CTA`: number of rows of the square matrix processed by each
execution group (source: `#define ROWS_PER_CTA 8`). -/
def ROWS_PER_CTA : ℕ := 8

/-- The global device memory visible to one `JacobiMethod` dispatch:
the coefficient matrix `A` (row-major, flat index `i * n + j`), the right-hand
side `b`, the current iterate `x`, the next iterate `x_new`, and the global
residual accumulator `sum` (the double pointed to by `d_sum`). -/
structure GlobalMem where
  A : ℕ → ℚ
  b : ℕ → ℚ
  x : ℕ → ℚ
  x_new : ℕ → ℚ
  sum : ℚ

/-! ## The per-group `JacobiMethod` kernel (jacobi.dp.cpp lines 57-157)

The kernel is translated phase by phase.  `blk` is the group index
(`item_ct1.get_group(2)`); the group owns rows
`blk * ROWS_PER_CTA + k`, `k < ROWS_PER_CTA`, clipped to `i < n`.
The contents of the group-local scratch buffers `x_shared` and `b_shared`
before the kernel runs are arbitrary and are passed in as `xsh0` / `bsh0`. -/

/-- Phase 1 (source lines 66-69): all lanes cooperatively stage the current
iterate into `x_shared`; the lanes' strided writes cover exactly the indices
`j < n`, each written once with `x j`. -/
def stageX (n : ℕ) (x xsh0 : ℕ → ℚ) : ℕ → ℚ :=
  fun j => if j < n then x j else xsh0 j

/-- The `b_shared` slot used for row `i` (source: `b_shared[i % (ROWS_PER_CTA + 1)]`). -/
def bSlot (i : ℕ) : ℕ := i % (ROWS_PER_CTA + 1)

/-- Phase 2 (source lines 71-78): lanes `k < ROWS_PER_CTA` stage the owned,
in-range entries of `b` into `b_shared` (one write per owned row; the writes of
different lanes go to distinct slots and are modelled as a sequential fold). -/
def stageB (n blk : ℕ) (b bsh0 : ℕ → ℚ) : ℕ → ℚ :=
  (List.range ROWS_PER_CTA).foldl
    (fun s k =>
      if blk * ROWS_PER_CTA + k < n then
        Function.update s (bSlot (blk * ROWS_PER_CTA + k)) (b (blk * ROWS_PER_CTA + k))
      else s)
    bsh0

/-- The full dot product of matrix row `i` with the staged iterate
(source lines 91-101: per-lane strided partial sums followed by the sub-group
shuffle reduce; in exact arithmetic the reduction computes this sum). -/
def rowDot (n : ℕ) (A xsh : ℕ → ℚ) (i : ℕ) : ℚ :=
  ∑ j in Finset.range n, A (i * n + j) * xsh j

/-- Phase 3 (source lines 89-107): for each owned in-range row `i`, the reduced
row dot product is subtracted (atomic add of `-rowThreadSum`) from the row's
`b_shared` slot, leaving `b i - (A·x) i` there. -/
def accumB (n blk : ℕ) (A xsh bsh : ℕ → ℚ) : ℕ → ℚ :=
  (List.range ROWS_PER_CTA).foldl
    (fun s k =>
      if blk * ROWS_PER_CTA + k < n then
        Function.update s (bSlot (blk * ROWS_PER_CTA + k))
          (s (bSlot (blk * ROWS_PER_CTA + k)) - rowDot n A xsh (blk * ROWS_PER_CTA + k))
      else s)
    bsh

/-- Phase 4 (source lines 116-155): each lane `k < ROWS_PER_CTA` with an
in-range owned row `i` computes `dx = b_shared[i % 9] / A[i*n+i]`, writes
`x_new[i] = x_shared[i] + dx` and contributes `|dx|` to the group total
`temp_sum`; the `tile8` shuffle reduce sums the eight lane totals, modelled by
accumulating them in the second component.  Returns the updated `x_new`
together with the group total added once to the global accumulator. -/
def phase4 (n blk : ℕ) (A xsh bsh xnew0 : ℕ → ℚ) : (ℕ → ℚ) × ℚ :=
  (List.range ROWS_PER_CTA).foldl
    (fun st k =>
      if blk * ROWS_PER_CTA + k < n then
        (Function.update st.1 (blk * ROWS_PER_CTA + k)
            (xsh (blk * ROWS_PER_CTA + k) +
              bsh (bSlot (blk * ROWS_PER_CTA + k)) /
                A ((blk * ROWS_PER_CTA + k) * n + (blk * ROWS_PER_CTA + k))),
          st.2 +
            |bsh (bSlot (blk * ROWS_PER_CTA + k)) /
                A ((blk * ROWS_PER_CTA + k) * n + (blk * ROWS_PER_CTA + k))|)
      else st)
    (xnew0, 0)

/-- One invocation of the `JacobiMethod` kernel for execution group `blk`
(jacobi.dp.cpp lines 57-157), acting on the global memory `g`.  `xsh0` and
`bsh0` are the arbitrary initial contents of the group-local scratch. -/
def JacobiMethod (n blk : ℕ) (xsh0 bsh0 : ℕ → ℚ) (g : GlobalMem) : GlobalMem :=
  { g with
    x_new := (phase4 n blk g.A (stageX n g.x xsh0)
        (accumB n blk g.A (stageX n g.x xsh0) (stageB n blk g.b bsh0)) g.x_new).1
    sum := g.sum + (phase4 n blk g.A (stageX n g.x xsh0)
        (accumB n blk g.A (stageX n g.x xsh0) (stageB n blk g.b bsh0)) g.x_new).2 }

/-- The Jacobi update for row `i`:
`dx_i = (b i - Σ_{j<n} A (i*n+j) * x j) / A (i*n+i)`. -/
def jacobiDx (n : ℕ) (A b x : ℕ → ℚ) (i : ℕ) : ℚ :=
  (b i - ∑ j in Finset.range n, A (i * n + j) * x j) / A (i * n + i)

/-- Grid size of a `JacobiMethod` dispatch:
`nblocks = (N_ROWS / ROWS_PER_CTA) + 2` (source line 221/425/664). -/
def NBLOCKS (n : ℕ) : ℕ := n / ROWS_PER_CTA + 2

/-- One full `JacobiMethod` dispatch: all `NBLOCKS n` groups run (their global
writes are to pairwise disjoint rows of `x_new` plus one atomic add each to the
accumulator, so the dispatch is modelled as a fold over the group index).
The group-local scratch starts out in an arbitrary (here: zero) state. -/
def jacobiDispatch (n : ℕ) (g : GlobalMem) : GlobalMem :=
  (List.range (NBLOCKS n)).foldl
    (fun g blk => JacobiMethod n blk (fun _ => 0) (fun _ => 0) g) g

/-! ## The `finalError` kernel (jacobi.dp.cpp lines 160-213)

Dispatched on `nblocks = n / 256 + 1` groups of `256` lanes.  Each lane sums
`|x i - 1|` over its grid-strided indices; a warp shuffle reduce, a staging of
warp totals to scratch, and a second shuffle reduce in the first warp combine
the lane sums into one group total, atomically added to `g_sum`. -/

/-- Work-group size of the `finalError` dispatch (`nthreads(256, 1, 1)`). -/
def FINAL_NTHREADS : ℕ := 256

/-- Grid size of the `finalError` dispatch: `(N_ROWS / nthreads.x) + 1`. -/
def finalErrorNBlocks (n : ℕ) : ℕ := n / FINAL_NTHREADS + 1

/-- Partial sum of the lane with global id `gid` (source lines 170-174):
the grid-stride loop `for (i = gid; i < n; i += stride)` accumulates
`|x i - 1|`; its index set is `{i < n | i ≡ gid [MOD stride]}` since `gid < stride`. -/
def finalThreadSum (n stride gid : ℕ) (x : ℕ → ℚ) : ℚ :=
  ∑ i in (Finset.range n).filter (fun i => i % stride = gid), |x i - 1|

/-- Total of one group of the `finalError` dispatch: the two-level shuffle
reduction combines the `FINAL_NTHREADS` lane partials into one value, added to
`g_sum` by the group's first lane. -/
def finalBlockSum (n : ℕ) (x : ℕ → ℚ) (blk : ℕ) : ℚ :=
  ∑ t in Finset.range FINAL_NTHREADS,
    finalThreadSum n (FINAL_NTHREADS * finalErrorNBlocks n)
      (blk * FINAL_NTHREADS + t) x

/-- One full `finalError` dispatch: every group atomically adds its total to
the global sum `gsum`. -/
def finalError (n : ℕ) (x : ℕ → ℚ) (gsum : ℚ) : ℚ :=
  gsum + ∑ blk in Finset.range (finalErrorNBlocks n), finalBlockSum n x blk

/-! ## The reference driver `JacobiMethodGpu` (jacobi.dp.cpp lines 658-833) -/

/-- One driver iteration with index `k` (loop body, lines 673-755): zero the
accumulator, dispatch `JacobiMethod` reading from the buffer holding the
current iterate (`x` when `k` is even, `x_new` when `k` is odd) and writing the
other one, and read the residual back.  Returns the two physical buffers
(`x`, `x_new`, in that order) and the residual. -/
def jacobiStep (n : ℕ) (A b : ℕ → ℚ) (k : ℕ) (x xn : ℕ → ℚ) :
    ((ℕ → ℚ) × (ℕ → ℚ)) × ℚ :=
  if k % 2 = 0 then
    ((( jacobiDispatch n ⟨A, b, x, xn, 0⟩).x,
      (jacobiDispatch n ⟨A, b, x, xn, 0⟩).x_new),
      (jacobiDispatch n ⟨A, b, x, xn, 0⟩).sum)
  else
    ((( jacobiDispatch n ⟨A, b, xn, x, 0⟩).x_new,
      (jacobiDispatch n ⟨A, b, xn, x, 0⟩).x),
      (jacobiDispatch n ⟨A, b, xn, x, 0⟩).sum)

/-- The driver loop of `JacobiMethodGpu` (lines 672-828).  `fuel` is the number
of remaining iterations (`max_iter - k`), `k` the iteration index, `sum` the
host copy of the residual (initially `0.0`), and `cnt` a ghost counter of
executed loop iterations.  On `sum ≤ conv_threshold` the driver zeroes the
accumulator, dispatches `finalError` on the buffer holding the latest iterate
(`x_new` for even `k`, `x` for odd `k`), copies the result back into `sum` and
breaks; the function returns `(x, x_new, sum, cnt)`. -/
def gpuLoop (n : ℕ) (A b : ℕ → ℚ) (thr : ℚ) :
    ℕ → ℕ → (ℕ → ℚ) → (ℕ → ℚ) → ℚ → ℕ → ((ℕ → ℚ) × (ℕ → ℚ) × ℚ × ℕ)
  | 0, _, x, xn, sum, cnt => (x, xn, sum, cnt)
  | fuel + 1, k, x, xn, _, cnt =>
    if (jacobiStep n A b k x xn).2 ≤ thr then
      ((jacobiStep n A b k x xn).1.1, (jacobiStep n A b k x xn).1.2,
        finalError n
          (if k % 2 = 0 then (jacobiStep n A b k x xn).1.2
           else (jacobiStep n A b k x xn).1.1) 0,
        cnt + 1)
    else
      gpuLoop n A b thr fuel (k + 1) (jacobiStep n A b k x xn).1.1
        (jacobiStep n A b k x xn).1.2 (jacobiStep n A b k x xn).2 (cnt + 1)

/-- The reference (non-graph) solver entry point `JacobiMethodGpu`
(jacobi.dp.cpp lines 658-833).  Returns the final contents of the two iterate
buffers, the returned `sum`, and the ghost iteration count. -/
def JacobiMethodGpu (n : ℕ) (A b : ℕ → ℚ) (thr : ℚ) (max_iter : ℕ)
    (x xn : ℕ → ℚ) : (ℕ → ℚ) × (ℕ → ℚ) × ℚ × ℕ :=
  gpuLoop n A b thr max_iter 0 x xn 0 0

/-- The contents of the two iterate buffers after `k` driver iterations
(the mathematical trace of the loop of `JacobiMethodGpu`). -/
def iterState (n : ℕ) (A b : ℕ → ℚ) (x0 xn0 : ℕ → ℚ) : ℕ → (ℕ → ℚ) × (ℕ → ℚ)
  | 0 => (x0, xn0)
  | k + 1 =>
    (jacobiStep n A b k (iterState n A b x0 xn0 k).1 (iterState n A b x0 xn0 k).2).1

/-- The residual (`Σ|dx|` accumulator value) computed by driver iteration `k`. -/
def resAt (n : ℕ) (A b : ℕ → ℚ) (x0 xn0 : ℕ → ℚ) (k : ℕ) : ℚ :=
  (jacobiStep n A b k (iterState n A b x0 xn0 k).1 (iterState n A b x0 xn0 k).2).2

/-! ## The two graph-based drivers (jacobi.dp.cpp lines 215-415 and 417-656)

Modelled from the spec: the CUDA-graph API (`cudaGraphCreate`,
`cudaGraphAddMemsetNode` / `AddKernelNode` / `AddMemcpyNode`,
`cudaGraphInstantiate`, `cudaGraphExecKernelNodeSetParams`,
`cudaStreamBeginCapture` / `EndCapture`, `cudaGraphExecUpdate`,
`cudaGraphLaunch`) is external to the repository and unmigrated (DPCT1119
stubs); per the spec these calls precompile a fixed launch graph, patch only
the buffer pointers each iteration (variant 1) or re-capture the recorded
stream each iteration (variant 2), and launching a graph executes exactly the
recorded operation sequence memset → kernel dispatch → memcpy. -/

/-- Driver loop of `JacobiMethodGpuCudaGraphExecKernelSetParams` (lines
324-410): each iteration patches the kernel node with `NodeParams0`
(read `x`, write `x_new`) when `k` is even and `NodeParams1` (read `x_new`,
write `x`) when `k` is odd, launches the graph (recorded ops: zero the
accumulator, run the `JacobiMethod` grid, copy the accumulator to `sum`) and
waits; the convergence branch is identical to the reference driver. -/
def gpuLoopKSP (n : ℕ) (A b : ℕ → ℚ) (thr : ℚ) :
    ℕ → ℕ → (ℕ → ℚ) → (ℕ → ℚ) → ℚ → ℕ → ((ℕ → ℚ) × (ℕ → ℚ) × ℚ × ℕ)
  | 0, _, x, xn, sum, cnt => (x, xn, sum, cnt)
  | fuel + 1, k, x, xn, _, cnt =>
    if (if k % 2 = 0 then (jacobiDispatch n ⟨A, b, x, xn, 0⟩).sum
        else (jacobiDispatch n ⟨A, b, xn, x, 0⟩).sum) ≤ thr then
      (if k % 2 = 0 then (jacobiDispatch n ⟨A, b, x, xn, 0⟩).x
       else (jacobiDispatch n ⟨A, b, xn, x, 0⟩).x_new,
       if k % 2 = 0 then (jacobiDispatch n ⟨A, b, x, xn, 0⟩).x_new
       else (jacobiDispatch n ⟨A, b, xn, x, 0⟩).x,
       finalError n
         (if k % 2 = 0 then (jacobiDispatch n ⟨A, b, x, xn, 0⟩).x_new
          else (jacobiDispatch n ⟨A, b, xn, x, 0⟩).x_new) 0,
       cnt + 1)
    else
      gpuLoopKSP n A b thr fuel (k + 1)
        (if k % 2 = 0 then (jacobiDispatch n ⟨A, b, x, xn, 0⟩).x
         else (jacobiDispatch n ⟨A, b, xn, x, 0⟩).x_new)
        (if k % 2 = 0 then (jacobiDispatch n ⟨A, b, x, xn, 0⟩).x_new
         else (jacobiDispatch n ⟨A, b, xn, x, 0⟩).x)
        (if k % 2 = 0 then (jacobiDispatch n ⟨A, b, x, xn, 0⟩).sum
         else (jacobiDispatch n ⟨A, b, xn, x, 0⟩).sum)
        (cnt + 1)

/-- Solver entry point `JacobiMethodGpuCudaGraphExecKernelSetParams`
(jacobi.dp.cpp lines 215-415). -/
def JacobiMethodGpuCudaGraphExecKernelSetParams (n : ℕ) (A b : ℕ → ℚ)
    (thr : ℚ) (max_iter : ℕ) (x xn : ℕ → ℚ) : (ℕ → ℚ) × (ℕ → ℚ) × ℚ × ℕ :=
  gpuLoopKSP n A b thr max_iter 0 x xn 0 0

/-- Driver loop of `JacobiMethodGpuCudaGraphExecUpdate` (lines 442-651): each
iteration re-captures the stream (memset, `JacobiMethod` grid with the
parity-selected buffer pointers, memcpy of the accumulator into `sum`),
instantiates or updates the executable graph, launches it and waits; the
convergence branch is identical to the reference driver. -/
def gpuLoopUpd (n : ℕ) (A b : ℕ → ℚ) (thr : ℚ) :
    ℕ → ℕ → (ℕ → ℚ) → (ℕ → ℚ) → ℚ → ℕ → ((ℕ → ℚ) × (ℕ → ℚ) × ℚ × ℕ)
  | 0, _, x, xn, sum, cnt => (x, xn, sum, cnt)
  | fuel + 1, k, x, xn, _, cnt =>
    if (if k % 2 = 0 then (jacobiDispatch n ⟨A, b, x, xn, 0⟩).sum
        else (jacobiDispatch n ⟨A, b, xn, x, 0⟩).sum) ≤ thr then
      (if k % 2 = 0 then (jacobiDispatch n ⟨A, b, x, xn, 0⟩).x
       else (jacobiDispatch n ⟨A, b, xn, x, 0⟩).x_new,
       if k % 2 = 0 then (jacobiDispatch n ⟨A, b, x, xn, 0⟩).x_new
       else (jacobiDispatch n ⟨A, b, xn, x, 0⟩).x,
       finalError n
         (if k % 2 = 0 then (jacobiDispatch n ⟨A, b, x, xn, 0⟩).x_new
          else (jacobiDispatch n ⟨A, b, xn, x, 0⟩).x_new) 0,
       cnt + 1)
    else
      gpuLoopUpd n A b thr fuel (k + 1)
        (if k % 2 = 0 then (jacobiDispatch n ⟨A, b, x, xn, 0⟩).x
         else (jacobiDispatch n ⟨A, b, xn, x, 0⟩).x_new)
        (if k % 2 = 0 then (jacobiDispatch n ⟨A, b, x, xn, 0⟩).x_new
         else (jacobiDispatch n ⟨A, b, xn, x, 0⟩).x)
        (if k % 2 = 0 then (jacobiDispatch n ⟨A, b, x, xn, 0⟩).sum
         else (jacobiDispatch n ⟨A, b, xn, x, 0⟩).sum)
        (cnt + 1)

/-- Solver entry point `JacobiMethodGpuCudaGraphExecUpdate`
(jacobi.dp.cpp lines 417-656). -/
def JacobiMethodGpuCudaGraphExecUpdate (n : ℕ) (A b : ℕ → ℚ)
    (thr : ℚ) (max_iter : ℕ) (x xn : ℕ → ℚ) : (ℕ → ℚ) × (ℕ → ℚ) × ℚ × ℕ :=
  gpuLoopUpd n A b thr max_iter 0 x xn 0 0

/-! ## Separable convolution: constants (convolutionSeparable.dp.cpp)

The kernel coefficient buffer `c_Kernel` has `KERNEL_LENGTH = 2 * KERNEL_RADIUS + 1`
entries; `KERNEL_RADIUS` is defined in the missing header
`convolutionSeparable_common.h` and is treated as the parameter `R`.
Coefficients are modelled as a function `kern : ℤ → ℚ` (only indices
`0 .. 2R` are ever read). -/

/-- `#define ROWS_BLOCKDIM_X 16` -/
def ROWS_BLOCKDIM_X : ℕ := 16
/-- `#define ROWS_BLOCKDIM_Y 4` -/
def ROWS_BLOCKDIM_Y : ℕ := 4
/-- `#define ROWS_RESULT_STEPS 8` -/
def ROWS_RESULT_STEPS : ℕ := 8
/-- `#define ROWS_HALO_STEPS 1` -/
def ROWS_HALO_STEPS : ℕ := 1
/-- `#define COLUMNS_BLOCKDIM_X 16` -/
def COLUMNS_BLOCKDIM_X : ℕ := 16
/-- `#define COLUMNS_BLOCKDIM_Y 8` -/
def COLUMNS_BLOCKDIM_Y : ℕ := 8
/-- `#define COLUMNS_RESULT_STEPS 8` -/
def COLUMNS_RESULT_STEPS : ℕ := 8
/-- `#define COLUMNS_HALO_STEPS 1` -/
def COLUMNS_HALO_STEPS : ℕ := 1

/-- A bounds-checked source read by column: `src[y * W + col]` when
`0 ≤ col < W`, else the zero substituted by the halo guards. -/
def padCol (src : ℕ → ℚ) (W : ℕ) (y col : ℤ) : ℚ :=
  if 0 ≤ col ∧ col < (W : ℤ) then src (y * W + col).toNat else 0

/-- A bounds-checked source read by row: `src[r * W + x]` when `0 ≤ r < H`,
else the zero substituted by the halo guards. -/
def padRow (src : ℕ → ℚ) (W H : ℕ) (r x : ℤ) : ℚ :=
  if 0 ≤ r ∧ r < (H : ℤ) then src (r * W + x).toNat else 0

/-! ## Row pass: `convolutionRowsKernel` (convolutionSeparable.dp.cpp lines 54-124) -/

/-- The shared tile `s_Data` of the row-pass group `(bx, gy)` after the three
load loops (main data, left halo, right halo; source lines 74-100), as a
function of the local row `ty` and the flat column `c = tx + i * ROWS_BLOCKDIM_X`
(each `(ty, c)` is written exactly once, by lane `(c % 16, ty)` at step
`i = c / 16`).  The branches carry the source's guards: the left-halo load
checks `baseX >= -i * ROWS_BLOCKDIM_X`, the right-halo load checks
`imageW - baseX > i * ROWS_BLOCKDIM_X`, the main loads are unguarded. -/
def rowsSData (src : ℕ → ℚ) (imageW pitch : ℤ) (bx gy ty : ℕ) (c : ℤ) : ℚ :=
  if (ROWS_HALO_STEPS : ℤ) ≤ c / ROWS_BLOCKDIM_X ∧
      c / ROWS_BLOCKDIM_X < ROWS_HALO_STEPS + ROWS_RESULT_STEPS then
    src (((gy : ℤ) * ROWS_BLOCKDIM_Y + ty) * pitch +
      (((bx : ℤ) * ROWS_RESULT_STEPS - ROWS_HALO_STEPS) * ROWS_BLOCKDIM_X +
        c % ROWS_BLOCKDIM_X) + c / ROWS_BLOCKDIM_X * ROWS_BLOCKDIM_X).toNat
  else if c / ROWS_BLOCKDIM_X < (ROWS_HALO_STEPS : ℤ) then
    (if ((bx : ℤ) * ROWS_RESULT_STEPS - ROWS_HALO_STEPS) * ROWS_BLOCKDIM_X +
          c % ROWS_BLOCKDIM_X ≥ -(c / ROWS_BLOCKDIM_X) * ROWS_BLOCKDIM_X then
      src (((gy : ℤ) * ROWS_BLOCKDIM_Y + ty) * pitch +
        (((bx : ℤ) * ROWS_RESULT_STEPS - ROWS_HALO_STEPS) * ROWS_BLOCKDIM_X +
          c % ROWS_BLOCKDIM_X) + c / ROWS_BLOCKDIM_X * ROWS_BLOCKDIM_X).toNat
    else 0)
  else
    (if imageW - (((bx : ℤ) * ROWS_RESULT_STEPS - ROWS_HALO_STEPS) * ROWS_BLOCKDIM_X +
          c % ROWS_BLOCKDIM_X) > c / ROWS_BLOCKDIM_X * ROWS_BLOCKDIM_X then
      src (((gy : ℤ) * ROWS_BLOCKDIM_Y + ty) * pitch +
        (((bx : ℤ) * ROWS_RESULT_STEPS - ROWS_HALO_STEPS) * ROWS_BLOCKDIM_X +
          c % ROWS_BLOCKDIM_X) + c / ROWS_BLOCKDIM_X * ROWS_BLOCKDIM_X).toNat
    else 0)

/-- The flat destination address written by the row-pass work item
`p = (bx, gy, ty, tx, i)` (with `i` the result-step index, `1 ≤ i ≤ 8`):
`(baseY * pitch + baseX + i * ROWS_BLOCKDIM_X)` with `pitch = W`. -/
def rowsWriteAddr (W : ℕ) (p : ℕ × ℕ × ℕ × ℕ × ℕ) : ℕ :=
  (p.2.1 * ROWS_BLOCKDIM_Y + p.2.2.1) * W +
    (p.1 * (ROWS_RESULT_STEPS * ROWS_BLOCKDIM_X) + p.2.2.2.1 +
      (p.2.2.2.2 - 1) * ROWS_BLOCKDIM_X)

/-- The value written by the row-pass work item `p = (bx, gy, ty, tx, i)`
(source lines 111-123): `Σ_{j=-R}^{R} c_Kernel[R-j] * s_Data[ty][tx + i*16 + j]`. -/
def rowsWriteVal (R : ℕ) (kern : ℤ → ℚ) (src : ℕ → ℚ) (W : ℕ)
    (p : ℕ × ℕ × ℕ × ℕ × ℕ) : ℚ :=
  ∑ j in Finset.Icc (-(R : ℤ)) (R : ℤ),
    kern ((R : ℤ) - j) *
      rowsSData src W W p.1 p.2.1 p.2.2.1
        ((p.2.2.2.1 : ℤ) + (p.2.2.2.2 : ℤ) * ROWS_BLOCKDIM_X + j)

/-- All work items of a row-pass dispatch: groups
`bx < W / 128`, `gy < H / 4`, lanes `(tx, ty)`, result steps `i = i' + 1`
(`ROWS_HALO_STEPS ≤ i < ROWS_HALO_STEPS + ROWS_RESULT_STEPS`). -/
def rowsWriteList (W H : ℕ) : List (ℕ × ℕ × ℕ × ℕ × ℕ) :=
  (List.range (W / (ROWS_RESULT_STEPS * ROWS_BLOCKDIM_X))).flatMap fun bx =>
    (List.range (H / ROWS_BLOCKDIM_Y)).flatMap fun gy =>
      (List.range ROWS_BLOCKDIM_Y).flatMap fun ty =>
        (List.range ROWS_BLOCKDIM_X).flatMap fun tx =>
          (List.range ROWS_RESULT_STEPS).map fun i => (bx, gy, ty, tx, i + 1)

/-- The destination buffer after one row-pass dispatch (all work items write
to pairwise distinct addresses, so the dispatch is a fold of the writes). -/
def rowsDispatch (R : ℕ) (kern : ℤ → ℚ) (src dst : ℕ → ℚ) (W H : ℕ) : ℕ → ℚ :=
  (rowsWriteList W H).foldl
    (fun d p => Function.update d (rowsWriteAddr W p) (rowsWriteVal R kern src W p))
    dst

/-- Host wrapper `convolutionRowsGPU` (source lines 126-168): `assert`s the
halo-coverage and divisibility preconditions (aborting on violation, modelled
as `none`), then launches the row-pass grid with `pitch = imageW`. -/
def convolutionRowsGPU (R : ℕ) (kern : ℤ → ℚ) (src dst : ℕ → ℚ)
    (W H : ℕ) : Option (ℕ → ℚ) :=
  if ROWS_BLOCKDIM_X * ROWS_HALO_STEPS ≥ R ∧
      W % (ROWS_RESULT_STEPS * ROWS_BLOCKDIM_X) = 0 ∧ H % ROWS_BLOCKDIM_Y = 0 then
    some (rowsDispatch R kern src dst W H)
  else none

/-! ## Column pass: `convolutionColumnsKernel` (convolutionSeparable.dp.cpp lines 178-255) -/

/-- The shared tile `s_Data` of the column-pass group `(bx, gy)` after the
three load loops (main data, upper halo, lower halo; source lines 199-231), as
a function of the local column `tx` and the flat row `c = ty + i * COLUMNS_BLOCKDIM_Y`.
The upper-halo guard is `baseY >= -i * COLUMNS_BLOCKDIM_Y`, the lower-halo
guard is `imageH - baseY > i * COLUMNS_BLOCKDIM_Y`; reads stride by `pitch`. -/
def colsSData (src : ℕ → ℚ) (imageH pitch : ℤ) (bx gy tx : ℕ) (c : ℤ) : ℚ :=
  if (COLUMNS_HALO_STEPS : ℤ) ≤ c / COLUMNS_BLOCKDIM_Y ∧
      c / COLUMNS_BLOCKDIM_Y < COLUMNS_HALO_STEPS + COLUMNS_RESULT_STEPS then
    src ((((gy : ℤ) * COLUMNS_RESULT_STEPS - COLUMNS_HALO_STEPS) * COLUMNS_BLOCKDIM_Y +
        c % COLUMNS_BLOCKDIM_Y) * pitch + ((bx : ℤ) * COLUMNS_BLOCKDIM_X + tx) +
      c / COLUMNS_BLOCKDIM_Y * COLUMNS_BLOCKDIM_Y * pitch).toNat
  else if c / COLUMNS_BLOCKDIM_Y < (COLUMNS_HALO_STEPS : ℤ) then
    (if ((gy : ℤ) * COLUMNS_RESULT_STEPS - COLUMNS_HALO_STEPS) * COLUMNS_BLOCKDIM_Y +
          c % COLUMNS_BLOCKDIM_Y ≥ -(c / COLUMNS_BLOCKDIM_Y) * COLUMNS_BLOCKDIM_Y then
      src ((((gy : ℤ) * COLUMNS_RESULT_STEPS - COLUMNS_HALO_STEPS) * COLUMNS_BLOCKDIM_Y +
          c % COLUMNS_BLOCKDIM_Y) * pitch + ((bx : ℤ) * COLUMNS_BLOCKDIM_X + tx) +
        c / COLUMNS_BLOCKDIM_Y * COLUMNS_BLOCKDIM_Y * pitch).toNat
    else 0)
  else
    (if imageH - (((gy : ℤ) * COLUMNS_RESULT_STEPS - COLUMNS_HALO_STEPS) * COLUMNS_BLOCKDIM_Y +
          c % COLUMNS_BLOCKDIM_Y) > c / COLUMNS_BLOCKDIM_Y * COLUMNS_BLOCKDIM_Y then
      src ((((gy : ℤ) * COLUMNS_RESULT_STEPS - COLUMNS_HALO_STEPS) * COLUMNS_BLOCKDIM_Y +
          c % COLUMNS_BLOCKDIM_Y) * pitch + ((bx : ℤ) * COLUMNS_BLOCKDIM_X + tx) +
        c / COLUMNS_BLOCKDIM_Y * COLUMNS_BLOCKDIM_Y * pitch).toNat
    else 0)

/-- The flat destination address written by the column-pass work item
`p = (bx, gy, tx, ty, i)`: `(baseY + i * COLUMNS_BLOCKDIM_Y) * pitch + baseX`. -/
def colsWriteAddr (W : ℕ) (p : ℕ × ℕ × ℕ × ℕ × ℕ) : ℕ :=
  (p.2.1 * (COLUMNS_RESULT_STEPS * COLUMNS_BLOCKDIM_Y) + p.2.2.2.1 +
      (p.2.2.2.2 - 1) * COLUMNS_BLOCKDIM_Y) * W +
    (p.1 * COLUMNS_BLOCKDIM_X + p.2.2.1)

/-- The value written by the column-pass work item `p = (bx, gy, tx, ty, i)`
(source lines 242-254): `Σ_{j=-R}^{R} c_Kernel[R-j] * s_Data[tx][ty + i*8 + j]`. -/
def colsWriteVal (R : ℕ) (kern : ℤ → ℚ) (src : ℕ → ℚ) (W H : ℕ)
    (p : ℕ × ℕ × ℕ × ℕ × ℕ) : ℚ :=
  ∑ j in Finset.Icc (-(R : ℤ)) (R : ℤ),
    kern ((R : ℤ) - j) *
      colsSData src H W p.1 p.2.1 p.2.2.1
        ((p.2.2.2.1 : ℤ) + (p.2.2.2.2 : ℤ) * COLUMNS_BLOCKDIM_Y + j)

/-- All work items of a column-pass dispatch: groups `bx < W / 16`,
`gy < H / 64`, lanes `(tx, ty)`, result steps `i = i' + 1`. -/
def colsWriteList (W H : ℕ) : List (ℕ × ℕ × ℕ × ℕ × ℕ) :=
  (List.range (W / COLUMNS_BLOCKDIM_X)).flatMap fun bx =>
    (List.range (H / (COLUMNS_RESULT_STEPS * COLUMNS_BLOCKDIM_Y))).flatMap fun gy =>
      (List.range COLUMNS_BLOCKDIM_X).flatMap fun tx =>
        (List.range COLUMNS_BLOCKDIM_Y).flatMap fun ty =>
          (List.range COLUMNS_RESULT_STEPS).map fun i => (bx, gy, tx, ty, i + 1)

/-- The destination buffer after one column-pass dispatch. -/
def colsDispatch (R : ℕ) (kern : ℤ → ℚ) (src dst : ℕ → ℚ) (W H : ℕ) : ℕ → ℚ :=
  (colsWriteList W H).foldl
    (fun d p => Function.update d (colsWriteAddr W p) (colsWriteVal R kern src W H p))
    dst

/-- Host wrapper `convolutionColumnsGPU` (source lines 257-304): `assert`s the
halo-coverage and divisibility preconditions (aborting on violation, modelled
as `none`), then launches the column-pass grid with `pitch = imageW`. -/
def convolutionColumnsGPU (R : ℕ) (kern : ℤ → ℚ) (src dst : ℕ → ℚ)
    (W H : ℕ) : Option (ℕ → ℚ) :=
  if COLUMNS_BLOCKDIM_Y * COLUMNS_HALO_STEPS ≥ R ∧
      W % COLUMNS_BLOCKDIM_X = 0 ∧
      H % (COLUMNS_RESULT_STEPS * COLUMNS_BLOCKDIM_Y) = 0 then
    some (colsDispatch R kern src dst W H)
  else none

/-- The identity coefficient vector `[0, 0, 1, 0, 0]` for `KERNEL_RADIUS = 2`
(weight `1` at index `KERNEL_RADIUS`, `0` elsewhere). -/
def idKernel : ℤ → ℚ := fun c => if c = 2 then 1 else 0

/-! ## Generic lemmas about folds of guarded parallel writes -/

/-- Frame property of a guarded read-modify-write fold over `List.range N`:
slots not named by any executed step are unchanged. -/
theorem foldl_rmw_frame (c : ℕ → Prop) [DecidablePred c] (sl : ℕ → ℕ)
    (g : ℕ → ℚ → ℚ) :
    ∀ (N : ℕ) (s : ℕ → ℚ) (t : ℕ), (∀ k, k < N → c k → sl k ≠ t) →
      ((List.range N).foldl
        (fun s k => if c k then Function.update s (sl k) (g k (s (sl k))) else s) s) t
        = s t := by
  intro N
  induction N with
  | zero => intro s t _; simp
  | succ N ih =>
    intro s t h
    rw [List.range_succ, List.foldl_append, List.foldl_cons, List.foldl_nil]
    by_cases hc : c N
    · rw [if_pos hc, Function.update_noteq (fun he => h N (Nat.lt_succ_self N) hc he.symm)]
      exact ih s t fun k hk => h k (Nat.lt_succ_of_lt hk)
    · rw [if_neg hc]
      exact ih s t fun k hk => h k (Nat.lt_succ_of_lt hk)

/-- Reading the slot of an executed step of a guarded read-modify-write fold,
when the executed steps write pairwise distinct slots: the result is the
step's value applied to the slot's initial contents. -/
theorem foldl_rmw_read (c : ℕ → Prop) [DecidablePred c] (sl : ℕ → ℕ)
    (g : ℕ → ℚ → ℚ) :
    ∀ (N : ℕ), (∀ k k', k < N → k' < N → k ≠ k' → sl k ≠ sl k') →
      ∀ (s : ℕ → ℚ) (k₀ : ℕ), k₀ < N → c k₀ →
      ((List.range N).foldl
        (fun s k => if c k then Function.update s (sl k) (g k (s (sl k))) else s) s)
          (sl k₀)
        = g k₀ (s (sl k₀)) := by
  intro N
  induction N with
  | zero => intro _ s k₀ h; omega
  | succ N ih =>
    intro hinj s k₀ hk₀ hc₀
    rw [List.range_succ, List.foldl_append, List.foldl_cons, List.foldl_nil]
    rcases Nat.lt_succ_iff_lt_or_eq.mp hk₀ with hlt | heq
    · have hne : sl N ≠ sl k₀ :=
        hinj N k₀ (Nat.lt_succ_self N) (Nat.lt_succ_of_lt hlt) (by omega)
      by_cases hc : c N
      · rw [if_pos hc, Function.update_noteq (fun he => hne he.symm)]
        exact ih (fun k k' hk hk' => hinj k k' (Nat.lt_succ_of_lt hk) (Nat.lt_succ_of_lt hk'))
          s k₀ hlt hc₀
      · rw [if_neg hc]
        exact ih (fun k k' hk hk' => hinj k k' (Nat.lt_succ_of_lt hk) (Nat.lt_succ_of_lt hk'))
          s k₀ hlt hc₀
    · subst heq
      rw [if_pos hc₀, Function.update_same]
      congr 1
      exact foldl_rmw_frame c sl g k₀ s (sl k₀)
        fun k hk _ => hinj k k₀ (Nat.lt_succ_of_lt hk) (Nat.lt_succ_self _) (by omega)

/-- The first component of the guarded pair fold used for phase 4 is the plain
guarded write fold (the scalar accumulator does not influence the writes). -/
theorem pairfold_fst (c : ℕ → Prop) [DecidablePred c] (adr : ℕ → ℕ)
    (val w : ℕ → ℚ) :
    ∀ (N : ℕ) (f : ℕ → ℚ) (a : ℚ),
      ((List.range N).foldl
        (fun st k => if c k then (Function.update st.1 (adr k) (val k), st.2 + w k) else st)
        (f, a)).1
      = (List.range N).foldl
          (fun s k => if c k then Function.update s (adr k) (val k) else s) f := by
  intro N
  induction N with
  | zero => intro f a; simp
  | succ N ih =>
    intro f a
    rw [List.range_succ, List.foldl_append, List.foldl_append,
      List.foldl_cons, List.foldl_cons, List.foldl_nil, List.foldl_nil]
    by_cases hc : c N
    · rw [if_pos hc, if_pos hc, ← ih f a]
    · rw [if_neg hc, if_neg hc, ih f a]

/-- The second component of the guarded pair fold used for phase 4 is the sum
of the guard-selected contributions. -/
theorem pairfold_snd (c : ℕ → Prop) [DecidablePred c] (adr : ℕ → ℕ)
    (val w : ℕ → ℚ) :
    ∀ (N : ℕ) (f : ℕ → ℚ) (a : ℚ),
      ((List.range N).foldl
        (fun st k => if c k then (Function.update st.1 (adr k) (val k), st.2 + w k) else st)
        (f, a)).2
      = a + ∑ k in (Finset.range N).filter c, w k := by
  intro N
  induction N with
  | zero => intro f a; simp
  | succ N ih =>
    intro f a
    rw [List.range_succ, List.foldl_append, List.foldl_cons, List.foldl_nil]
    rw [Finset.range_succ, Finset.filter_insert]
    by_cases hc : c N
    · rw [if_pos hc, if_pos hc,
        Finset.sum_insert (fun hmem => Nat.lt_irrefl N (Finset.mem_range.mp (Finset.mem_filter.mp hmem).1))]
      rw [ih f a]; ring
    · rw [if_neg hc, if_neg hc, ih f a]

/-- Frame property of a fold of writes over an arbitrary work-item list:
addresses not written keep their initial contents. -/
theorem foldl_writes_frame {P : Type} (adr : P → ℕ) (val : P → ℚ) :
    ∀ (l : List P) (d : ℕ → ℚ) (t : ℕ), (∀ p ∈ l, adr p ≠ t) →
      (l.foldl (fun d p => Function.update d (adr p) (val p)) d) t = d t := by
  intro l
  induction l with
  | nil => intro d t _; simp
  | cons q l ih =>
    intro d t h
    rw [List.foldl_cons]
    rw [ih _ t fun p hp => h p (List.mem_cons_of_mem q hp)]
    exact Function.update_noteq (fun he => h q (List.mem_cons_self q l) he.symm) _ _

/-- Reading the address of a work item whose address is written by no other
work item of the list: the result is that item's value. -/
theorem foldl_writes_read {P : Type} (adr : P → ℕ) (val : P → ℚ) :
    ∀ (l : List P) (d : ℕ → ℚ) (p₀ : P), p₀ ∈ l →
      (∀ p ∈ l, adr p = adr p₀ → p = p₀) →
      (l.foldl (fun d p => Function.update d (adr p) (val p)) d) (adr p₀) = val p₀ := by
  intro l
  induction l with
  | nil => intro d p₀ h; exact absurd h (List.not_mem_nil p₀)
  | cons q l ih =>
    intro d p₀ h₀ huniq
    rw [List.foldl_cons]
    by_cases hmem : p₀ ∈ l
    · exact ih _ p₀ hmem fun p hp => huniq p (List.mem_cons_of_mem q hp)
    · have hq : q = p₀ := by
        rcases List.mem_cons.mp h₀ with h | h
        · exact h.symm
        · exact absurd h hmem
      subst hq
      rw [foldl_writes_frame adr val l _ (adr q)
        (fun p hp he => hmem (huniq p (List.mem_cons_of_mem q hp) he ▸ hp))]
      exact Function.update_same _ _ _

/-- Uniqueness of the `(row, column)` decomposition of a flat pixel address. -/
theorem addr_decomp {W y x y2 x2 : ℕ} (hx : x < W) (hx2 : x2 < W)
    (h : y * W + x = y2 * W + x2) : y = y2 ∧ x = x2 := by
  have hW : 0 < W := Nat.lt_of_le_of_lt (Nat.zero_le x) hx
  have hy : y = y2 := by
    have h1 : (y * W + x) / W = y := by
      rw [Nat.mul_comm, Nat.mul_add_div hW, Nat.div_eq_of_lt hx, Nat.add_zero]
    have h2 : (y2 * W + x2) / W = y2 := by
      rw [Nat.mul_comm, Nat.mul_add_div hW, Nat.div_eq_of_lt hx2, Nat.add_zero]
    rw [← h1, h, h2]
  refine ⟨hy, ?_⟩
  subst hy
  exact Nat.add_left_cancel h

/-! ## Characterization of one `JacobiMethod` group invocation -/

/-- `b_shared` slots of distinct rows owned by one group are distinct
(the slots are `ROWS_PER_CTA` consecutive residues mod `ROWS_PER_CTA + 1`). -/
theorem bSlot_inj (blk : ℕ) : ∀ k k', k < ROWS_PER_CTA → k' < ROWS_PER_CTA →
    k ≠ k' → bSlot (blk * ROWS_PER_CTA + k) ≠ bSlot (blk * ROWS_PER_CTA + k') := by
  intro k k' hk hk' hne
  simp only [bSlot, ROWS_PER_CTA] at *
  omega

/-- After phases 2 and 3, the `b_shared` slot of an owned in-range row `i`
holds `b i - rowDot i`. -/
theorem accumB_stageB_read (n blk : ℕ) (A b xsh bsh0 : ℕ → ℚ) (k₀ : ℕ)
    (hk₀ : k₀ < ROWS_PER_CTA) (hin : blk * ROWS_PER_CTA + k₀ < n) :
    accumB n blk A xsh (stageB n blk b bsh0) (bSlot (blk * ROWS_PER_CTA + k₀))
      = b (blk * ROWS_PER_CTA + k₀) - rowDot n A xsh (blk * ROWS_PER_CTA + k₀) := by
  have h1 : accumB n blk A xsh (stageB n blk b bsh0) (bSlot (blk * ROWS_PER_CTA + k₀))
      = stageB n blk b bsh0 (bSlot (blk * ROWS_PER_CTA + k₀))
          - rowDot n A xsh (blk * ROWS_PER_CTA + k₀) :=
    foldl_rmw_read (fun k => blk * ROWS_PER_CTA + k < n)
      (fun k => bSlot (blk * ROWS_PER_CTA + k))
      (fun k old => old - rowDot n A xsh (blk * ROWS_PER_CTA + k))
      ROWS_PER_CTA (bSlot_inj blk) (stageB n blk b bsh0) k₀ hk₀ hin
  have h2 : stageB n blk b bsh0 (bSlot (blk * ROWS_PER_CTA + k₀))
      = b (blk * ROWS_PER_CTA + k₀) :=
    foldl_rmw_read (fun k => blk * ROWS_PER_CTA + k < n)
      (fun k => bSlot (blk * ROWS_PER_CTA + k))
      (fun k _ => b (blk * ROWS_PER_CTA + k))
      ROWS_PER_CTA (bSlot_inj blk) bsh0 k₀ hk₀ hin
  rw [h1, h2]

/-- The staged iterate agrees with `x` on all matrix rows. -/
theorem rowDot_stageX (n : ℕ) (A x xsh0 : ℕ → ℚ) (i : ℕ) :
    rowDot n A (stageX n x xsh0) i = ∑ j in Finset.range n, A (i * n + j) * x j := by
  unfold rowDot stageX
  exact Finset.sum_congr rfl fun j hj => by rw [if_pos (Finset.mem_range.mp hj)]

/-- The value written to `x_new` for an owned in-range row is the Jacobi
update `x i + dx i`. -/
theorem jacobiVal_eq (n blk : ℕ) (xsh0 bsh0 : ℕ → ℚ) (g : GlobalMem) (k₀ : ℕ)
    (hk₀ : k₀ < ROWS_PER_CTA) (hin : blk * ROWS_PER_CTA + k₀ < n) :
    stageX n g.x xsh0 (blk * ROWS_PER_CTA + k₀) +
      accumB n blk g.A (stageX n g.x xsh0) (stageB n blk g.b bsh0)
          (bSlot (blk * ROWS_PER_CTA + k₀)) /
        g.A ((blk * ROWS_PER_CTA + k₀) * n + (blk * ROWS_PER_CTA + k₀))
    = g.x (blk * ROWS_PER_CTA + k₀) + jacobiDx n g.A g.b g.x (blk * ROWS_PER_CTA + k₀) := by
  rw [accumB_stageB_read n blk g.A g.b (stageX n g.x xsh0) bsh0 k₀ hk₀ hin,
    rowDot_stageX n g.A g.x xsh0 (blk * ROWS_PER_CTA + k₀)]
  unfold stageX jacobiDx
  rw [if_pos hin]

/-- The `dx` magnitude contributed by lane `k` of group `blk` is
`|jacobiDx (blk * ROWS_PER_CTA + k)|`. -/
theorem jacobiAbs_eq (n blk : ℕ) (xsh0 bsh0 : ℕ → ℚ) (g : GlobalMem) (k₀ : ℕ)
    (hk₀ : k₀ < ROWS_PER_CTA) (hin : blk * ROWS_PER_CTA + k₀ < n) :
    |accumB n blk g.A (stageX n g.x xsh0) (stageB n blk g.b bsh0)
          (bSlot (blk * ROWS_PER_CTA + k₀)) /
        g.A ((blk * ROWS_PER_CTA + k₀) * n + (blk * ROWS_PER_CTA + k₀))|
    = |jacobiDx n g.A g.b g.x (blk * ROWS_PER_CTA + k₀)| := by
  rw [accumB_stageB_read n blk g.A g.b (stageX n g.x xsh0) bsh0 k₀ hk₀ hin,
    rowDot_stageX n g.A g.x xsh0 (blk * ROWS_PER_CTA + k₀)]
  unfold jacobiDx
  rfl


/-- Full characterization of one `JacobiMethod` group invocation: `A`, `b` and
`x` are untouched, `x_new` is rewritten exactly at the group's owned in-range
rows with the Jacobi update, and the accumulator grows by the group's
`Σ |dx|`. -/
theorem JacobiMethod_characterize (n blk : ℕ) (xsh0 bsh0 : ℕ → ℚ) (g : GlobalMem) :
    (JacobiMethod n blk xsh0 bsh0 g).A = g.A ∧
    (JacobiMethod n blk xsh0 bsh0 g).b = g.b ∧
    (JacobiMethod n blk xsh0 bsh0 g).x = g.x ∧
    (∀ j, (JacobiMethod n blk xsh0 bsh0 g).x_new j =
      if blk * ROWS_PER_CTA ≤ j ∧ j < blk * ROWS_PER_CTA + ROWS_PER_CTA ∧ j < n then
        g.x j + jacobiDx n g.A g.b g.x j
      else g.x_new j) ∧
    (JacobiMethod n blk xsh0 bsh0 g).sum =
      g.sum + ∑ k in (Finset.range ROWS_PER_CTA).filter
          (fun k => blk * ROWS_PER_CTA + k < n),
        |jacobiDx n g.A g.b g.x (blk * ROWS_PER_CTA + k)| := by
  have hfst : (phase4 n blk g.A (stageX n g.x xsh0)
      (accumB n blk g.A (stageX n g.x xsh0) (stageB n blk g.b bsh0)) g.x_new).1
      = (List.range ROWS_PER_CTA).foldl
          (fun s k => if blk * ROWS_PER_CTA + k < n then
            Function.update s (blk * ROWS_PER_CTA + k)
              (stageX n g.x xsh0 (blk * ROWS_PER_CTA + k) +
                accumB n blk g.A (stageX n g.x xsh0) (stageB n blk g.b bsh0)
                    (bSlot (blk * ROWS_PER_CTA + k)) /
                  g.A ((blk * ROWS_PER_CTA + k) * n + (blk * ROWS_PER_CTA + k)))
            else s) g.x_new :=
    pairfold_fst (fun k => blk * ROWS_PER_CTA + k < n)
      (fun k => blk * ROWS_PER_CTA + k)
      (fun k => stageX n g.x xsh0 (blk * ROWS_PER_CTA + k) +
        accumB n blk g.A (stageX n g.x xsh0) (stageB n blk g.b bsh0)
            (bSlot (blk * ROWS_PER_CTA + k)) /
          g.A ((blk * ROWS_PER_CTA + k) * n + (blk * ROWS_PER_CTA + k)))
      (fun k => |accumB n blk g.A (stageX n g.x xsh0) (stageB n blk g.b bsh0)
            (bSlot (blk * ROWS_PER_CTA + k)) /
          g.A ((blk * ROWS_PER_CTA + k) * n + (blk * ROWS_PER_CTA + k))|)
      ROWS_PER_CTA g.x_new 0
  refine ⟨rfl, rfl, rfl, ?_, ?_⟩
  · intro j
    show (phase4 n blk g.A (stageX n g.x xsh0)
        (accumB n blk g.A (stageX n g.x xsh0) (stageB n blk g.b bsh0)) g.x_new).1 j = _
    rw [hfst]
    by_cases hj : blk * ROWS_PER_CTA ≤ j ∧ j < blk * ROWS_PER_CTA + ROWS_PER_CTA ∧ j < n
    · rw [if_pos hj]
      obtain ⟨k₀, hk₀, rfl⟩ : ∃ k, k < ROWS_PER_CTA ∧ blk * ROWS_PER_CTA + k = j :=
        ⟨j - blk * ROWS_PER_CTA, by omega, by omega⟩
      have hread := foldl_rmw_read (fun k => blk * ROWS_PER_CTA + k < n)
        (fun k => blk * ROWS_PER_CTA + k)
        (fun k _ => stageX n g.x xsh0 (blk * ROWS_PER_CTA + k) +
          accumB n blk g.A (stageX n g.x xsh0) (stageB n blk g.b bsh0)
              (bSlot (blk * ROWS_PER_CTA + k)) /
            g.A ((blk * ROWS_PER_CTA + k) * n + (blk * ROWS_PER_CTA + k)))
        ROWS_PER_CTA (fun k k' _ _ hne =>
          show blk * ROWS_PER_CTA + k ≠ blk * ROWS_PER_CTA + k' by omega)
        g.x_new k₀ hk₀ hj.2.2
      rw [hread]
      exact jacobiVal_eq n blk xsh0 bsh0 g k₀ hk₀ hj.2.2
    · rw [if_neg hj]
      exact foldl_rmw_frame (fun k => blk * ROWS_PER_CTA + k < n)
        (fun k => blk * ROWS_PER_CTA + k)
        (fun k _ => stageX n g.x xsh0 (blk * ROWS_PER_CTA + k) +
          accumB n blk g.A (stageX n g.x xsh0) (stageB n blk g.b bsh0)
              (bSlot (blk * ROWS_PER_CTA + k)) /
            g.A ((blk * ROWS_PER_CTA + k) * n + (blk * ROWS_PER_CTA + k)))
        ROWS_PER_CTA g.x_new j (by
          intro k hk hc he
          have hc2 : blk * ROWS_PER_CTA + k < n := hc
          have he2 : blk * ROWS_PER_CTA + k = j := he
          exact hj ⟨by omega, by omega, by omega⟩)
  · show g.sum + (phase4 n blk g.A (stageX n g.x xsh0)
        (accumB n blk g.A (stageX n g.x xsh0) (stageB n blk g.b bsh0)) g.x_new).2 = _
    have hsnd : (phase4 n blk g.A (stageX n g.x xsh0)
        (accumB n blk g.A (stageX n g.x xsh0) (stageB n blk g.b bsh0)) g.x_new).2
        = 0 + ∑ k in (Finset.range ROWS_PER_CTA).filter
            (fun k => blk * ROWS_PER_CTA + k < n),
          |accumB n blk g.A (stageX n g.x xsh0) (stageB n blk g.b bsh0)
              (bSlot (blk * ROWS_PER_CTA + k)) /
            g.A ((blk * ROWS_PER_CTA + k) * n + (blk * ROWS_PER_CTA + k))| :=
      pairfold_snd (fun k => blk * ROWS_PER_CTA + k < n)
        (fun k => blk * ROWS_PER_CTA + k)
        (fun k => stageX n g.x xsh0 (blk * ROWS_PER_CTA + k) +
          accumB n blk g.A (stageX n g.x xsh0) (stageB n blk g.b bsh0)
              (bSlot (blk * ROWS_PER_CTA + k)) /
            g.A ((blk * ROWS_PER_CTA + k) * n + (blk * ROWS_PER_CTA + k)))
        (fun k => |accumB n blk g.A (stageX n g.x xsh0) (stageB n blk g.b bsh0)
              (bSlot (blk * ROWS_PER_CTA + k)) /
            g.A ((blk * ROWS_PER_CTA + k) * n + (blk * ROWS_PER_CTA + k))|)
        ROWS_PER_CTA g.x_new 0
    rw [hsnd, zero_add]
    congr 1
    refine Finset.sum_congr rfl fun k hk => ?_
    have hmem := Finset.mem_filter.mp hk
    exact jacobiAbs_eq n blk xsh0 bsh0 g k (Finset.mem_range.mp hmem.1) hmem.2

/-- Extending the covered-row sum by one more group's owned in-range rows. -/
theorem sum_min_extend (n B : ℕ) (f : ℕ → ℚ) :
    ∑ i in Finset.range (min n (ROWS_PER_CTA * (B + 1))), f i
    = ∑ i in Finset.range (min n (ROWS_PER_CTA * B)), f i
      + ∑ k in (Finset.range ROWS_PER_CTA).filter
          (fun k => B * ROWS_PER_CTA + k < n), f (B * ROWS_PER_CTA + k) := by
  by_cases hB : ROWS_PER_CTA * B ≤ n
  · have ha : min n (ROWS_PER_CTA * B) = ROWS_PER_CTA * B := by
      simp only [ROWS_PER_CTA] at *; omega
    have hfil : (Finset.range ROWS_PER_CTA).filter (fun k => B * ROWS_PER_CTA + k < n)
        = Finset.range (min n (ROWS_PER_CTA * (B + 1)) - ROWS_PER_CTA * B) := by
      ext k
      simp only [Finset.mem_filter, Finset.mem_range, ROWS_PER_CTA]
      omega
    rw [hfil, ha, Finset.range_eq_Ico,
      ← Finset.sum_Ico_consecutive f (Nat.zero_le (ROWS_PER_CTA * B))
        (show ROWS_PER_CTA * B ≤ min n (ROWS_PER_CTA * (B + 1)) by
          simp only [ROWS_PER_CTA] at *; omega)]
    congr 1
    rw [Finset.sum_Ico_eq_sum_range, Finset.range_eq_Ico]
    refine Finset.sum_congr rfl fun k _ => ?_
    congr 1
    simp only [ROWS_PER_CTA]; omega
  · have h1 : min n (ROWS_PER_CTA * B) = n := by simp only [ROWS_PER_CTA] at *; omega
    have h2 : min n (ROWS_PER_CTA * (B + 1)) = n := by
      simp only [ROWS_PER_CTA] at *; omega
    have hfil : (Finset.range ROWS_PER_CTA).filter
        (fun k => B * ROWS_PER_CTA + k < n) = ∅ := by
      ext k
      simp only [Finset.mem_filter, Finset.mem_range, Finset.not_mem_empty,
        iff_false, not_and, ROWS_PER_CTA] at *
      omega
    rw [h1, h2, hfil, Finset.sum_empty, add_zero]

/-- Characterization of the fold of the first `B` groups of a `JacobiMethod`
dispatch: rows `i < min n (ROWS_PER_CTA * B)` of `x_new` carry the Jacobi
update, everything else is framed, and the accumulator collects `Σ |dx|` over
the covered rows. -/
theorem jacobiBlocks_characterize (n : ℕ) :
    ∀ (B : ℕ) (g : GlobalMem),
      ((List.range B).foldl
          (fun g blk => JacobiMethod n blk (fun _ => 0) (fun _ => 0) g) g).A = g.A ∧
      ((List.range B).foldl
          (fun g blk => JacobiMethod n blk (fun _ => 0) (fun _ => 0) g) g).b = g.b ∧
      ((List.range B).foldl
          (fun g blk => JacobiMethod n blk (fun _ => 0) (fun _ => 0) g) g).x = g.x ∧
      (∀ j, ((List.range B).foldl
          (fun g blk => JacobiMethod n blk (fun _ => 0) (fun _ => 0) g) g).x_new j =
        if j < n ∧ j < ROWS_PER_CTA * B then g.x j + jacobiDx n g.A g.b g.x j
        else g.x_new j) ∧
      ((List.range B).foldl
          (fun g blk => JacobiMethod n blk (fun _ => 0) (fun _ => 0) g) g).sum =
        g.sum + ∑ i in Finset.range (min n (ROWS_PER_CTA * B)),
          |jacobiDx n g.A g.b g.x i| := by
  intro B
  induction B with
  | zero =>
    intro g
    refine ⟨rfl, rfl, rfl, fun j => ?_, ?_⟩
    · simp [ROWS_PER_CTA]
    · simp [ROWS_PER_CTA]
  | succ B ih =>
    intro g
    rw [List.range_succ, List.foldl_append, List.foldl_cons, List.foldl_nil]
    obtain ⟨hA, hb, hx, hxnew, hsum⟩ := ih g
    obtain ⟨hA2, hb2, hx2, hxnew2, hsum2⟩ :=
      JacobiMethod_characterize n B (fun _ => 0) (fun _ => 0)
        ((List.range B).foldl
          (fun g blk => JacobiMethod n blk (fun _ => 0) (fun _ => 0) g) g)
    refine ⟨by rw [hA2, hA], by rw [hb2, hb], by rw [hx2, hx], fun j => ?_, ?_⟩
    · rw [hxnew2 j, hA, hb, hx, hxnew j]
      simp only [ROWS_PER_CTA]
      split_ifs with h1 h2 h2 h3 <;> first | rfl | (exfalso; omega)
    · rw [hsum2, hA, hb, hx, hsum,
        sum_min_extend n B (fun i => |jacobiDx n g.A g.b g.x i|)]
      ring

/-- Characterization of one full `JacobiMethod` dispatch (`NBLOCKS n` groups):
every row `i < n` of `x_new` receives the Jacobi update, all other state is
framed, and the accumulator collects the full `Σ |dx|`. -/
theorem jacobiDispatch_characterize (n : ℕ) (g : GlobalMem) :
    (jacobiDispatch n g).A = g.A ∧ (jacobiDispatch n g).b = g.b ∧
    (jacobiDispatch n g).x = g.x ∧
    (∀ j, (jacobiDispatch n g).x_new j =
      if j < n then g.x j + jacobiDx n g.A g.b g.x j else g.x_new j) ∧
    (jacobiDispatch n g).sum =
      g.sum + ∑ i in Finset.range n, |jacobiDx n g.A g.b g.x i| := by
  unfold jacobiDispatch
  obtain ⟨hA, hb, hx, hxnew, hsum⟩ := jacobiBlocks_characterize n (NBLOCKS n) g
  have hcover : ∀ j, j < n → j < ROWS_PER_CTA * NBLOCKS n := by
    intro j hj
    simp only [ROWS_PER_CTA, NBLOCKS]
    omega
  have hmin : min n (ROWS_PER_CTA * NBLOCKS n) = n := by
    simp only [ROWS_PER_CTA, NBLOCKS]
    omega
  refine ⟨hA, hb, hx, fun j => ?_, by rw [hsum, hmin]⟩
  rw [hxnew j]
  by_cases hj : j < n
  · rw [if_pos ⟨hj, hcover j hj⟩, if_pos hj]
  · rw [if_neg (fun h => hj h.1), if_neg hj]

/-- Splitting a sum over a rectangular global-id space into per-group sums. -/
theorem sum_block_thread (Bn c : ℕ) (f : ℕ → ℚ) :
    ∑ blk in Finset.range Bn, ∑ t in Finset.range c, f (blk * c + t)
      = ∑ gid in Finset.range (Bn * c), f gid := by
  induction Bn with
  | zero => simp
  | succ B ih =>
    rw [Finset.sum_range_succ, ih, Nat.succ_mul, Finset.sum_range_add]

/-- A lane of the `finalError` dispatch handles at most one row: the grid
stride exceeds `n`, so lane `gid` sums exactly `|x gid - 1|` when `gid < n`
and `0` otherwise. -/
theorem finalThreadSum_eq (n gid : ℕ) (x : ℕ → ℚ) :
    finalThreadSum n (FINAL_NTHREADS * finalErrorNBlocks n) gid x
      = if gid < n then |x gid - 1| else 0 := by
  have hn : n < FINAL_NTHREADS * finalErrorNBlocks n := by
    simp only [FINAL_NTHREADS, finalErrorNBlocks]; omega
  unfold finalThreadSum
  have hfil : (Finset.range n).filter
      (fun i => i % (FINAL_NTHREADS * finalErrorNBlocks n) = gid)
      = if gid < n then {gid} else ∅ := by
    ext i
    simp only [Finset.mem_filter, Finset.mem_range]
    by_cases h : gid < n
    · rw [if_pos h]
      simp only [Finset.mem_singleton]
      constructor
      · rintro ⟨hi, hmod⟩
        rw [Nat.mod_eq_of_lt (lt_trans hi hn)] at hmod
        exact hmod
      · rintro rfl
        exact ⟨h, Nat.mod_eq_of_lt (lt_trans h hn)⟩
    · rw [if_neg h]
      simp only [Finset.not_mem_empty, iff_false]
      rintro ⟨hi, hmod⟩
      rw [Nat.mod_eq_of_lt (lt_trans hi hn)] at hmod
      omega
  rw [hfil]
  by_cases h : gid < n
  · rw [if_pos h, if_pos h, Finset.sum_singleton]
  · rw [if_neg h, if_neg h, Finset.sum_empty]

/-- One `finalError` dispatch adds exactly `Σ_{i<n} |x i - 1|` to the global sum. -/
theorem finalError_total (n : ℕ) (x : ℕ → ℚ) (gsum : ℚ) :
    finalError n x gsum = gsum + ∑ i in Finset.range n, |x i - 1| := by
  unfold finalError finalBlockSum
  congr 1
  rw [sum_block_thread (finalErrorNBlocks n) FINAL_NTHREADS
    (fun gid => finalThreadSum n (FINAL_NTHREADS * finalErrorNBlocks n) gid x)]
  have hcov : n ≤ finalErrorNBlocks n * FINAL_NTHREADS := by
    simp only [FINAL_NTHREADS, finalErrorNBlocks]; omega
  rw [Finset.sum_congr rfl
    (fun gid _ => finalThreadSum_eq n gid x), ← Finset.sum_filter]
  congr 1
  ext gid
  simp only [Finset.mem_filter, Finset.mem_range]
  constructor
  · rintro ⟨_, h2⟩; exact h2
  · intro h
    exact ⟨lt_of_lt_of_le h hcov, h⟩

/-- Unfolding of the trace: first buffer after one more iteration. -/
theorem iterState_succ_fst (n : ℕ) (A b x0 xn0 : ℕ → ℚ) (k : ℕ) :
    (iterState n A b x0 xn0 (k + 1)).1 =
      (jacobiStep n A b k (iterState n A b x0 xn0 k).1
        (iterState n A b x0 xn0 k).2).1.1 := rfl

/-- Unfolding of the trace: second buffer after one more iteration. -/
theorem iterState_succ_snd (n : ℕ) (A b x0 xn0 : ℕ → ℚ) (k : ℕ) :
    (iterState n A b x0 xn0 (k + 1)).2 =
      (jacobiStep n A b k (iterState n A b x0 xn0 k).1
        (iterState n A b x0 xn0 k).2).1.2 := rfl

/-- Unfolding of the trace: residual of iteration `k`. -/
theorem resAt_eq (n : ℕ) (A b x0 xn0 : ℕ → ℚ) (k : ℕ) :
    resAt n A b x0 xn0 k =
      (jacobiStep n A b k (iterState n A b x0 xn0 k).1
        (iterState n A b x0 xn0 k).2).2 := rfl

/-- When every remaining iteration stays above the threshold, the driver loop
runs `fuel` more iterations and returns the residual of the last one (or the
incoming `s` when `fuel = 0`). -/
theorem gpuLoop_exhaust (n : ℕ) (A b : ℕ → ℚ) (thr : ℚ) (x0 xn0 : ℕ → ℚ) :
    ∀ (fuel : ℕ), ∀ (k : ℕ) (s : ℚ) (cnt : ℕ),
      (∀ j, k ≤ j → j < k + fuel → thr < resAt n A b x0 xn0 j) →
      gpuLoop n A b thr fuel k (iterState n A b x0 xn0 k).1
          (iterState n A b x0 xn0 k).2 s cnt
        = ((iterState n A b x0 xn0 (k + fuel)).1,
           (iterState n A b x0 xn0 (k + fuel)).2,
           (if fuel = 0 then s else resAt n A b x0 xn0 (k + fuel - 1)),
           cnt + fuel) := by
  intro fuel
  induction fuel with
  | zero => intro k s cnt _; simp [gpuLoop]
  | succ fuel ih =>
    intro k s cnt h
    have hk : thr < resAt n A b x0 xn0 k := h k (le_refl k) (by omega)
    rw [gpuLoop, if_neg (by rw [← resAt_eq]; exact not_le.mpr hk)]
    rw [← iterState_succ_fst, ← iterState_succ_snd, ← resAt_eq]
    have := ih (k + 1) (resAt n A b x0 xn0 k) (cnt + 1)
      (fun j hj1 hj2 => h j (by omega) (by omega))
    rw [this]
    have h1 : k + 1 + fuel = k + (fuel + 1) := by omega
    rw [h1]
    rcases Nat.eq_zero_or_pos fuel with hf | hf
    · subst hf
      simp
    · rw [if_neg (by omega), if_neg (by omega)]
      have h2 : k + (fuel + 1) - 1 = k + 1 + fuel - 1 := by omega
      rw [h2]
      have h3 : cnt + 1 + fuel = cnt + (fuel + 1) := by omega
      rw [h3]

/-- When iteration `k₀` is the first to reach the threshold, the driver loop
stops there and returns the `finalError` of the buffer holding the latest
iterate (`x_new` for even `k₀`, `x` for odd `k₀`). -/
theorem gpuLoop_converge (n : ℕ) (A b : ℕ → ℚ) (thr : ℚ) (x0 xn0 : ℕ → ℚ) :
    ∀ (fuel : ℕ), ∀ (k : ℕ) (s : ℚ) (cnt : ℕ) (k₀ : ℕ),
      k ≤ k₀ → k₀ < k + fuel →
      (∀ j, k ≤ j → j < k₀ → thr < resAt n A b x0 xn0 j) →
      resAt n A b x0 xn0 k₀ ≤ thr →
      gpuLoop n A b thr fuel k (iterState n A b x0 xn0 k).1
          (iterState n A b x0 xn0 k).2 s cnt
        = ((iterState n A b x0 xn0 (k₀ + 1)).1,
           (iterState n A b x0 xn0 (k₀ + 1)).2,
           finalError n
             (if k₀ % 2 = 0 then (iterState n A b x0 xn0 (k₀ + 1)).2
              else (iterState n A b x0 xn0 (k₀ + 1)).1) 0,
           cnt + (k₀ + 1 - k)) := by
  intro fuel
  induction fuel with
  | zero => intro k s cnt k₀ h1 h2 _ _; omega
  | succ fuel ih =>
    intro k s cnt k₀ hk1 hk2 habove hconv
    rcases Nat.eq_or_lt_of_le hk1 with heq | hlt
    · subst heq
      rw [gpuLoop, if_pos (by rw [← resAt_eq]; exact hconv)]
      rw [← iterState_succ_fst, ← iterState_succ_snd]
      have hc : k + 1 - k = 1 := by omega
      rw [hc]
    · have hk : thr < resAt n A b x0 xn0 k := habove k (le_refl k) hlt
      rw [gpuLoop, if_neg (by rw [← resAt_eq]; exact not_le.mpr hk)]
      rw [← iterState_succ_fst, ← iterState_succ_snd]
      have := ih (k + 1) ((jacobiStep n A b k (iterState n A b x0 xn0 k).1
          (iterState n A b x0 xn0 k).2).2) (cnt + 1) k₀
        (by omega) (by omega) (fun j hj1 hj2 => habove j (by omega) hj2) hconv
      rw [this]
      have hc : cnt + 1 + (k₀ + 1 - (k + 1)) = cnt + (k₀ + 1 - k) := by omega
      rw [hc]

/-! ## Driver-loop equivalences for the graph-based variants -/

/-- The `ExecKernelSetParams` driver loop computes exactly the reference loop:
by cases on the iteration parity, each body performs the same memset, the same
`JacobiMethod` dispatch on the same buffers, and the same read-back and
convergence branch. -/
theorem gpuLoopKSP_eq (n : ℕ) (A b : ℕ → ℚ) (thr : ℚ) :
    ∀ (fuel : ℕ), ∀ (k : ℕ) (x xn : ℕ → ℚ) (s : ℚ) (cnt : ℕ),
      gpuLoopKSP n A b thr fuel k x xn s cnt = gpuLoop n A b thr fuel k x xn s cnt := by
  intro fuel
  induction fuel with
  | zero => intro k x xn s cnt; rfl
  | succ fuel ih =>
    intro k x xn s cnt
    by_cases hk : k % 2 = 0
    · simp only [gpuLoopKSP, gpuLoop, jacobiStep, hk, ih]
      simp
    · simp only [gpuLoopKSP, gpuLoop, jacobiStep, hk, ih]
      simp

/-- The `ExecUpdate` driver loop computes exactly the reference loop. -/
theorem gpuLoopUpd_eq (n : ℕ) (A b : ℕ → ℚ) (thr : ℚ) :
    ∀ (fuel : ℕ), ∀ (k : ℕ) (x xn : ℕ → ℚ) (s : ℚ) (cnt : ℕ),
      gpuLoopUpd n A b thr fuel k x xn s cnt = gpuLoop n A b thr fuel k x xn s cnt := by
  intro fuel
  induction fuel with
  | zero => intro k x xn s cnt; rfl
  | succ fuel ih =>
    intro k x xn s cnt
    by_cases hk : k % 2 = 0
    · simp only [gpuLoopUpd, gpuLoop, jacobiStep, hk, ih]
      simp
    · simp only [gpuLoopUpd, gpuLoop, jacobiStep, hk, ih]
      simp

/-! ## Claim theorems: Jacobi solver -/

/-- **C1.** For every row `i < n` owned by execution group `blk`, one
invocation of the `JacobiMethod` kernel sets `x_new i = x i + dx` where
`dx = (b i - Σ_j A (i*n+j) * x j) / A (i*n+i)`, and increases the global
residual accumulator `sum` by exactly the sum over the owned in-range rows of
`|dx|`, assuming every row's diagonal coefficient is nonzero.  (Over exact
arithmetic the conclusion does not even need the nonzero-diagonal assumption;
it is kept because the claim assumes it.) -/
theorem JacobiMethod_row_update (n blk : ℕ) (xsh0 bsh0 : ℕ → ℚ) (g : GlobalMem)
    (hdiag : ∀ i, i < n → g.A (i * n + i) ≠ 0) :
    (∀ k, k < ROWS_PER_CTA → blk * ROWS_PER_CTA + k < n →
      (JacobiMethod n blk xsh0 bsh0 g).x_new (blk * ROWS_PER_CTA + k)
        = g.x (blk * ROWS_PER_CTA + k)
          + jacobiDx n g.A g.b g.x (blk * ROWS_PER_CTA + k)) ∧
    (JacobiMethod n blk xsh0 bsh0 g).sum
      = g.sum + ∑ k in (Finset.range ROWS_PER_CTA).filter
          (fun k => blk * ROWS_PER_CTA + k < n),
        |jacobiDx n g.A g.b g.x (blk * ROWS_PER_CTA + k)| := by
  obtain ⟨_, _, _, hxnew, hsum⟩ := JacobiMethod_characterize n blk xsh0 bsh0 g
  refine ⟨fun k hk hin => ?_, hsum⟩
  rw [hxnew (blk * ROWS_PER_CTA + k),
    if_pos ⟨Nat.le_add_right _ _, by omega, hin⟩]

/-- Witness for **C1** at the concrete system `n = 1`, `A = [2]`, `b = [4]`,
`x = [1]`. -/
theorem JacobiMethod_row_update_witness :
    (JacobiMethod 1 0 (fun _ => 0) (fun _ => 0)
        ⟨fun _ => 2, fun _ => 4, fun _ => 1, fun _ => 0, 0⟩).x_new 0
      = (1 : ℚ) + jacobiDx 1 (fun _ => 2) (fun _ => 4) (fun _ => 1) 0 :=
  (JacobiMethod_row_update 1 0 (fun _ => 0) (fun _ => 0)
      ⟨fun _ => 2, fun _ => 4, fun _ => 1, fun _ => 0, 0⟩
      (fun i _ => two_ne_zero)).1 0 (by decide) (by decide)

/-- **C10.** One `JacobiMethod` invocation never writes `A`, `b` or the
current-iterate buffer `x`; its only global writes are to `x_new` at the
in-range rows owned by the group and the single atomic add of the group total
to the residual accumulator; every other location of `x_new` is unchanged. -/
theorem JacobiMethod_frame (n blk : ℕ) (xsh0 bsh0 : ℕ → ℚ) (g : GlobalMem) :
    (JacobiMethod n blk xsh0 bsh0 g).A = g.A ∧
    (JacobiMethod n blk xsh0 bsh0 g).b = g.b ∧
    (JacobiMethod n blk xsh0 bsh0 g).x = g.x ∧
    (∀ j, ¬ (blk * ROWS_PER_CTA ≤ j ∧ j < blk * ROWS_PER_CTA + ROWS_PER_CTA ∧ j < n) →
      (JacobiMethod n blk xsh0 bsh0 g).x_new j = g.x_new j) ∧
    (JacobiMethod n blk xsh0 bsh0 g).sum
      = g.sum + ∑ k in (Finset.range ROWS_PER_CTA).filter
          (fun k => blk * ROWS_PER_CTA + k < n),
        |jacobiDx n g.A g.b g.x (blk * ROWS_PER_CTA + k)| := by
  obtain ⟨hA, hb, hx, hxnew, hsum⟩ := JacobiMethod_characterize n blk xsh0 bsh0 g
  exact ⟨hA, hb, hx, fun j hj => by rw [hxnew j, if_neg hj], hsum⟩

/-- Witness for **C10**: row `3` is outside group `0`'s in-range rows for
`n = 1`, so its `x_new` entry is untouched. -/
theorem JacobiMethod_frame_witness :
    (JacobiMethod 1 0 (fun _ => 0) (fun _ => 0)
        ⟨fun _ => 2, fun _ => 4, fun _ => 1, fun _ => 7, 0⟩).x_new 3 = 7 :=
  (JacobiMethod_frame 1 0 (fun _ => 0) (fun _ => 0)
      ⟨fun _ => 2, fun _ => 4, fun _ => 1, fun _ => 7, 0⟩).2.2.2.1 3 (by decide)

/-- **C9.** Called with `max_iterations = 0`, the solver returns with both
iterate buffers untouched and the fixed value `0.0` — the sentinel left in the
host variable `sum`, not a residual computed from the initial guess — and the
ghost iteration counter confirms that no iteration ran. -/
theorem JacobiMethodGpu_zero_iter (n : ℕ) (A b x0 xn0 : ℕ → ℚ) (thr : ℚ) :
    JacobiMethodGpu n A b thr 0 x0 xn0 = (x0, xn0, 0, 0) := rfl

/-- Exhaustion behaviour of the reference driver (shared helper): with every
iteration's residual above the threshold, the solver runs all `max_iter`
iterations and returns the residual of the last one. -/
theorem JacobiMethodGpu_exhaust_aux (n : ℕ) (A b x0 xn0 : ℕ → ℚ) (thr : ℚ)
    (max_iter : ℕ) (hpos : 0 < max_iter)
    (habove : ∀ j, j < max_iter → thr < resAt n A b x0 xn0 j) :
    JacobiMethodGpu n A b thr max_iter x0 xn0
      = ((iterState n A b x0 xn0 max_iter).1, (iterState n A b x0 xn0 max_iter).2,
         resAt n A b x0 xn0 (max_iter - 1), max_iter) := by
  unfold JacobiMethodGpu
  have h := gpuLoop_exhaust n A b thr x0 xn0 max_iter 0 0 0
    (fun j _ hj => habove j (by omega))
  rw [show (iterState n A b x0 xn0 0).1 = x0 from rfl,
    show (iterState n A b x0 xn0 0).2 = xn0 from rfl] at h
  rw [h, if_neg (by omega)]
  simp

/-- **C8.** When no iteration reaches `residual ≤ conv_threshold` within
`max_iter` iterations, `JacobiMethodGpu` terminates normally after exactly
`max_iter` loop iterations (ghost counter), signals no error (it is a total
function returning normally), and returns the residual of the last executed
iteration. -/
theorem JacobiMethodGpu_exhaust (n : ℕ) (A b x0 xn0 : ℕ → ℚ) (thr : ℚ)
    (max_iter : ℕ) (hpos : 0 < max_iter)
    (habove : ∀ j, j < max_iter → thr < resAt n A b x0 xn0 j) :
    JacobiMethodGpu n A b thr max_iter x0 xn0
      = ((iterState n A b x0 xn0 max_iter).1, (iterState n A b x0 xn0 max_iter).2,
         resAt n A b x0 xn0 (max_iter - 1), max_iter) :=
  JacobiMethodGpu_exhaust_aux n A b x0 xn0 thr max_iter hpos habove

set_option maxRecDepth 10000 in
/-- Witness for **C8** at the concrete system `n = 1`, `A = [1]`, `b = [3]`,
`x = [0]`, threshold `0`, one iteration (the residual is `3 > 0`). -/
theorem JacobiMethodGpu_exhaust_witness :
    JacobiMethodGpu 1 (fun _ => 1) (fun _ => 3) 0 1 (fun _ => 0) (fun _ => 0)
      = ((iterState 1 (fun _ => 1) (fun _ => 3) (fun _ => 0) (fun _ => 0) 1).1,
         (iterState 1 (fun _ => 1) (fun _ => 3) (fun _ => 0) (fun _ => 0) 1).2,
         resAt 1 (fun _ => 1) (fun _ => 3) (fun _ => 0) (fun _ => 0) 0, 1) :=
  JacobiMethodGpu_exhaust 1 (fun _ => 1) (fun _ => 3) (fun _ => 0) (fun _ => 0) 0 1
    (by decide) (by with_unfolding_all decide)

set_option maxRecDepth 10000 in
/-- Counterexample to **C3** as stated: for the `n = 1` system `A = [1]`,
`b = [5]`, initial `x = [5]`, threshold `0` and `max_iter = 1`, the iteration
converges at `k = 0` with residual accumulator value `Σ|dx| = 0`, but
`JacobiMethodGpu` returns `4` (the `finalError` value `Σ|x_i - 1|` of the
latest iterate), not the `Σ|dx|` residual of the last executed iteration. -/
theorem JacobiMethodGpu_return_counterexample :
    (JacobiMethodGpu 1 (fun _ => 1) (fun _ => 5) 0 1 (fun _ => 5) (fun _ => 0)).2.2.1
      ≠ resAt 1 (fun _ => 1) (fun _ => 5) (fun _ => 5) (fun _ => 0) 0 := by
  with_unfolding_all decide

/-- **C3 (amended).** `JacobiMethodGpu` returns the `Σ|dx|` residual of the
last executed iteration only when it stops by exhausting `max_iter`; when it
stops by convergence it instead returns the final-error value
`Σ|x_i - 1|` of the latest iterate computed by the `finalError` dispatch
(and it returns the initial `0.0` when `max_iter = 0`). -/
theorem JacobiMethodGpu_return (n : ℕ) (A b x0 xn0 : ℕ → ℚ) (thr : ℚ)
    (max_iter : ℕ) :
    (0 < max_iter → (∀ j, j < max_iter → thr < resAt n A b x0 xn0 j) →
      (JacobiMethodGpu n A b thr max_iter x0 xn0).2.2.1
        = resAt n A b x0 xn0 (max_iter - 1)) ∧
    (∀ k₀, k₀ < max_iter → (∀ j, j < k₀ → thr < resAt n A b x0 xn0 j) →
      resAt n A b x0 xn0 k₀ ≤ thr →
      (JacobiMethodGpu n A b thr max_iter x0 xn0).2.2.1
        = ∑ i in Finset.range n,
            |(if k₀ % 2 = 0 then (iterState n A b x0 xn0 (k₀ + 1)).2
              else (iterState n A b x0 xn0 (k₀ + 1)).1) i - 1|) := by
  constructor
  · intro hpos habove
    rw [JacobiMethodGpu_exhaust_aux n A b x0 xn0 thr max_iter hpos habove]
  · intro k₀ hk₀ habove hconv
    unfold JacobiMethodGpu
    have h := gpuLoop_converge n A b thr x0 xn0 max_iter 0 0 0 k₀ (Nat.zero_le _)
      (by omega) (fun j _ hj => habove j hj) hconv
    rw [show (iterState n A b x0 xn0 0).1 = x0 from rfl,
      show (iterState n A b x0 xn0 0).2 = xn0 from rfl] at h
    rw [h]
    show finalError n _ 0 = _
    rw [finalError_total, zero_add]

set_option maxRecDepth 10000 in
/-- Witness for **C3 (amended)**, exhaustion branch, at the concrete system
`n = 1`, `A = [1]`, `b = [5]`, `x = [0]`, threshold `1`, one iteration. -/
theorem JacobiMethodGpu_return_witness :
    (JacobiMethodGpu 1 (fun _ => 1) (fun _ => 5) 1 1 (fun _ => 0) (fun _ => 0)).2.2.1
      = resAt 1 (fun _ => 1) (fun _ => 5) (fun _ => 0) (fun _ => 0) 0 :=
  (JacobiMethodGpu_return 1 (fun _ => 1) (fun _ => 5) (fun _ => 0) (fun _ => 0) 1 1).1
    (by decide) (by with_unfolding_all decide)

/-- **C5.** One dispatch of the `finalError` kernel adds exactly
`Σ_{i<n} |x i - 1|` to the global sum, and on convergence at iteration `k₀`
the driver runs `finalError` on the `x_new`-side buffer when `k₀` is even and
on the `x`-side buffer when `k₀` is odd — the buffer holding the latest
iterate — and returns its value. -/
theorem finalError_spec_and_latest (n : ℕ) :
    (∀ (x : ℕ → ℚ) (gsum : ℚ),
      finalError n x gsum = gsum + ∑ i in Finset.range n, |x i - 1|) ∧
    (∀ (A b x0 xn0 : ℕ → ℚ) (thr : ℚ) (max_iter k₀ : ℕ),
      k₀ < max_iter →
      (∀ j, j < k₀ → thr < resAt n A b x0 xn0 j) →
      resAt n A b x0 xn0 k₀ ≤ thr →
      (JacobiMethodGpu n A b thr max_iter x0 xn0).2.2.1
        = finalError n
            (if k₀ % 2 = 0 then (iterState n A b x0 xn0 (k₀ + 1)).2
             else (iterState n A b x0 xn0 (k₀ + 1)).1) 0) := by
  refine ⟨finalError_total n, ?_⟩
  intro A b x0 xn0 thr max_iter k₀ hk₀ habove hconv
  unfold JacobiMethodGpu
  have h := gpuLoop_converge n A b thr x0 xn0 max_iter 0 0 0 k₀ (Nat.zero_le _)
    (by omega) (fun j _ hj => habove j hj) hconv
  rw [show (iterState n A b x0 xn0 0).1 = x0 from rfl,
    show (iterState n A b x0 xn0 0).2 = xn0 from rfl] at h
  rw [h]

set_option maxRecDepth 10000 in
/-- Witness for **C5** at the concrete system `n = 1`, `A = [1]`, `b = [5]`,
`x = [5]` (residual `0` at iteration `0`, which is even: `finalError` runs on
the `x_new`-side buffer). -/
theorem finalError_spec_and_latest_witness :
    (JacobiMethodGpu 1 (fun _ => 1) (fun _ => 5) 0 1 (fun _ => 5) (fun _ => 0)).2.2.1
      = finalError 1
          (if 0 % 2 = 0
           then (iterState 1 (fun _ => 1) (fun _ => 5) (fun _ => 5) (fun _ => 0) 1).2
           else (iterState 1 (fun _ => 1) (fun _ => 5) (fun _ => 5) (fun _ => 0) 1).1) 0 :=
  (finalError_spec_and_latest 1).2 (fun _ => 1) (fun _ => 5) (fun _ => 5) (fun _ => 0)
    0 1 0 (by decide) (fun j hj => absurd hj (Nat.not_lt_zero j))
    (by with_unfolding_all decide)

/-- **C7.** For every matrix, right-hand side, threshold, iteration budget and
pair of initial buffers, the two graph-based drivers
`JacobiMethodGpuCudaGraphExecKernelSetParams` and
`JacobiMethodGpuCudaGraphExecUpdate` produce results identical to the
reference driver `JacobiMethodGpu`: the same final contents of the two iterate
buffers, the same returned value, and the same iteration count. -/
theorem graph_variants_equiv (n : ℕ) (A b x0 xn0 : ℕ → ℚ) (thr : ℚ)
    (max_iter : ℕ) :
    JacobiMethodGpuCudaGraphExecKernelSetParams n A b thr max_iter x0 xn0
      = JacobiMethodGpu n A b thr max_iter x0 xn0 ∧
    JacobiMethodGpuCudaGraphExecUpdate n A b thr max_iter x0 xn0
      = JacobiMethodGpu n A b thr max_iter x0 xn0 :=
  ⟨gpuLoopKSP_eq n A b thr max_iter 0 x0 xn0 0 0,
   gpuLoopUpd_eq n A b thr max_iter 0 x0 xn0 0 0⟩

/-! ## Characterization of the convolution row pass -/

/-- The shared row tile read at flat column `c` is the zero-padded source
pixel of image column `bx * 128 - 16 + c` (for any in-tile `c`, provided the
group's output columns fit in the image). -/
theorem rowsSData_eq (src : ℕ → ℚ) (W : ℕ) (bx gy ty : ℕ) (c : ℤ)
    (hc0 : 0 ≤ c) (hc1 : c < 160) (hbx : (bx + 1) * 128 ≤ W) :
    rowsSData src W W bx gy ty c
      = padCol src W ((gy : ℤ) * ROWS_BLOCKDIM_Y + ty) ((bx : ℤ) * 128 - 16 + c) := by
  simp only [rowsSData, padCol, ROWS_BLOCKDIM_X, ROWS_BLOCKDIM_Y, ROWS_RESULT_STEPS,
    ROWS_HALO_STEPS]
  push_cast
  split_ifs <;> first | rfl | (congr 1; omega) | (exfalso; omega)

/-- Membership in the row-pass work-item list. -/
theorem rowsWriteList_mem (W H : ℕ) (p : ℕ × ℕ × ℕ × ℕ × ℕ) :
    p ∈ rowsWriteList W H ↔
      p.1 < W / 128 ∧ p.2.1 < H / 4 ∧ p.2.2.1 < 4 ∧ p.2.2.2.1 < 16 ∧
        1 ≤ p.2.2.2.2 ∧ p.2.2.2.2 < 9 := by
  rcases p with ⟨bx, gy, ty, tx, i⟩
  simp only [rowsWriteList, List.mem_flatMap, List.mem_map, List.mem_range,
    Prod.mk.injEq, ROWS_RESULT_STEPS, ROWS_BLOCKDIM_X, ROWS_BLOCKDIM_Y]
  constructor
  · rintro ⟨bx', hbx, gy', hgy, ty', hty, tx', htx, i', hi', rfl, rfl, rfl, rfl, rfl⟩
    refine ⟨by omega, by omega, by omega, by omega, by omega, by omega⟩
  · rintro ⟨h1, h2, h3, h4, h5, h6⟩
    exact ⟨bx, by omega, gy, by omega, ty, by omega, tx, by omega, i - 1, by omega,
      rfl, rfl, rfl, rfl, by omega⟩

/-- **Row-pass pixel formula.**  After one row-pass dispatch with
`pitch = imageW`, destination pixel `(x, y)` holds
`Σ_{j=-R}^{R} kern (R-j) * src[y*W + x + j]`, where column reads outside
`[0, W)` contribute zero. -/
theorem rowsDispatch_pixel (R : ℕ) (kern : ℤ → ℚ) (src dst : ℕ → ℚ) (W H x y : ℕ)
    (hR : R ≤ 16) (hW : W % 128 = 0) (hH : H % 4 = 0) (hx : x < W) (hy : y < H) :
    rowsDispatch R kern src dst W H (y * W + x)
      = ∑ j in Finset.Icc (-(R : ℤ)) (R : ℤ),
          kern ((R : ℤ) - j) *
            (if 0 ≤ (x : ℤ) + j ∧ (x : ℤ) + j < (W : ℤ)
             then src ((y : ℤ) * (W : ℤ) + ((x : ℤ) + j)).toNat else 0) := by
  have hmem : (x / 128, y / 4, y % 4, x % 128 % 16, x % 128 / 16 + 1)
      ∈ rowsWriteList W H := by
    rw [rowsWriteList_mem]
    refine ⟨?_, ?_, ?_, ?_, ?_, ?_⟩ <;> dsimp only <;> omega
  have haddr : rowsWriteAddr W (x / 128, y / 4, y % 4, x % 128 % 16, x % 128 / 16 + 1)
      = y * W + x := by
    simp only [rowsWriteAddr, ROWS_BLOCKDIM_Y, ROWS_RESULT_STEPS, ROWS_BLOCKDIM_X]
    have h1 : y / 4 * 4 + y % 4 = y := by omega
    have h2 : x / 128 * (8 * 16) + x % 128 % 16 + (x % 128 / 16 + 1 - 1) * 16 = x := by
      omega
    rw [h1, h2]
  have huniq : ∀ p ∈ rowsWriteList W H,
      rowsWriteAddr W p = rowsWriteAddr W (x / 128, y / 4, y % 4, x % 128 % 16,
        x % 128 / 16 + 1) →
      p = (x / 128, y / 4, y % 4, x % 128 % 16, x % 128 / 16 + 1) := by
    intro p hp heq
    rcases p with ⟨bx, gy, ty, tx, i⟩
    rw [rowsWriteList_mem] at hp
    dsimp only at hp
    obtain ⟨h1, h2, h3, h4, h5, h6⟩ := hp
    rw [haddr] at heq
    simp only [rowsWriteAddr, ROWS_BLOCKDIM_Y, ROWS_RESULT_STEPS, ROWS_BLOCKDIM_X] at heq
    have hcol : bx * (8 * 16) + tx + (i - 1) * 16 < W := by omega
    obtain ⟨hyy, hxx⟩ := addr_decomp hcol hx heq
    simp only [Prod.mk.injEq]
    refine ⟨by omega, by omega, by omega, by omega, by omega⟩
  have hval : rowsDispatch R kern src dst W H (y * W + x)
      = rowsWriteVal R kern src W (x / 128, y / 4, y % 4, x % 128 % 16,
          x % 128 / 16 + 1) := by
    rw [← haddr]
    exact foldl_writes_read (rowsWriteAddr W) (rowsWriteVal R kern src W)
      (rowsWriteList W H) dst _ hmem huniq
  rw [hval]
  unfold rowsWriteVal
  refine Finset.sum_congr rfl fun j hj => ?_
  obtain ⟨hj1, hj2⟩ := Finset.mem_Icc.mp hj
  congr 1
  rw [rowsSData_eq src W (x / 128) (y / 4) (y % 4)
    (((x % 128 % 16 : ℕ) : ℤ) + ((x % 128 / 16 + 1 : ℕ) : ℤ) * ROWS_BLOCKDIM_X + j)
    (by simp only [ROWS_BLOCKDIM_X]; push_cast; omega)
    (by simp only [ROWS_BLOCKDIM_X]; push_cast; omega)
    (by omega)]
  have hcol : ((x / 128 : ℕ) : ℤ) * 128 - 16 +
      (((x % 128 % 16 : ℕ) : ℤ) + ((x % 128 / 16 + 1 : ℕ) : ℤ) * ROWS_BLOCKDIM_X + j)
      = (x : ℤ) + j := by
    simp only [ROWS_BLOCKDIM_X]; push_cast; omega
  have hrow : ((y / 4 : ℕ) : ℤ) * ROWS_BLOCKDIM_Y + ((y % 4 : ℕ) : ℤ) = (y : ℤ) := by
    simp only [ROWS_BLOCKDIM_Y]; push_cast; omega
  rw [hcol, hrow]
  rfl

/-! ## Characterization of the convolution column pass -/

/-- The shared column tile read at flat row `c` is the zero-padded source
pixel of image row `gy * 64 - 8 + c` (for any in-tile `c`, provided the
group's output rows fit in the image). -/
theorem colsSData_eq (src : ℕ → ℚ) (W H : ℕ) (bx gy tx : ℕ) (c : ℤ)
    (hc0 : 0 ≤ c) (hc1 : c < 80) (hgy : (gy + 1) * 64 ≤ H) :
    colsSData src H W bx gy tx c
      = padRow src W H ((gy : ℤ) * 64 - 8 + c) ((bx : ℤ) * COLUMNS_BLOCKDIM_X + tx) := by
  simp only [colsSData, padRow, COLUMNS_BLOCKDIM_X, COLUMNS_BLOCKDIM_Y,
    COLUMNS_RESULT_STEPS, COLUMNS_HALO_STEPS]
  push_cast
  split_ifs <;>
    first
      | rfl
      | (exfalso; omega)
      | (congr 1
         congr 1
         have hc8 : c % 8 + c / 8 * 8 = c := by omega
         linear_combination (W : ℤ) * hc8)

/-- Membership in the column-pass work-item list. -/
theorem colsWriteList_mem (W H : ℕ) (p : ℕ × ℕ × ℕ × ℕ × ℕ) :
    p ∈ colsWriteList W H ↔
      p.1 < W / 16 ∧ p.2.1 < H / 64 ∧ p.2.2.1 < 16 ∧ p.2.2.2.1 < 8 ∧
        1 ≤ p.2.2.2.2 ∧ p.2.2.2.2 < 9 := by
  rcases p with ⟨bx, gy, tx, ty, i⟩
  simp only [colsWriteList, List.mem_flatMap, List.mem_map, List.mem_range,
    Prod.mk.injEq, COLUMNS_RESULT_STEPS, COLUMNS_BLOCKDIM_X, COLUMNS_BLOCKDIM_Y]
  constructor
  · rintro ⟨bx', hbx, gy', hgy, tx', htx, ty', hty, i', hi', rfl, rfl, rfl, rfl, rfl⟩
    refine ⟨by omega, by omega, by omega, by omega, by omega, by omega⟩
  · rintro ⟨h1, h2, h3, h4, h5, h6⟩
    exact ⟨bx, by omega, gy, by omega, tx, by omega, ty, by omega, i - 1, by omega,
      rfl, rfl, rfl, rfl, by omega⟩

/-- **Column-pass pixel formula.**  After one column-pass dispatch with
`pitch = imageW`, destination pixel `(x, y)` holds
`Σ_{j=-R}^{R} kern (R-j) * src[(y+j)*W + x]`, where row reads outside
`[0, H)` contribute zero. -/
theorem colsDispatch_pixel (R : ℕ) (kern : ℤ → ℚ) (src dst : ℕ → ℚ) (W H x y : ℕ)
    (hR : R ≤ 8) (hW : W % 16 = 0) (hH : H % 64 = 0) (hx : x < W) (hy : y < H) :
    colsDispatch R kern src dst W H (y * W + x)
      = ∑ j in Finset.Icc (-(R : ℤ)) (R : ℤ),
          kern ((R : ℤ) - j) *
            (if 0 ≤ (y : ℤ) + j ∧ (y : ℤ) + j < (H : ℤ)
             then src (((y : ℤ) + j) * (W : ℤ) + (x : ℤ)).toNat else 0) := by
  have hmem : (x / 16, y / 64, x % 16, y % 64 % 8, y % 64 / 8 + 1)
      ∈ colsWriteList W H := by
    rw [colsWriteList_mem]
    refine ⟨?_, ?_, ?_, ?_, ?_, ?_⟩ <;> dsimp only <;> omega
  have haddr : colsWriteAddr W (x / 16, y / 64, x % 16, y % 64 % 8, y % 64 / 8 + 1)
      = y * W + x := by
    simp only [colsWriteAddr, COLUMNS_RESULT_STEPS, COLUMNS_BLOCKDIM_Y,
      COLUMNS_BLOCKDIM_X]
    have h1 : y / 64 * (8 * 8) + y % 64 % 8 + (y % 64 / 8 + 1 - 1) * 8 = y := by omega
    have h2 : x / 16 * 16 + x % 16 = x := by omega
    rw [h1, h2]
  have huniq : ∀ p ∈ colsWriteList W H,
      colsWriteAddr W p = colsWriteAddr W (x / 16, y / 64, x % 16, y % 64 % 8,
        y % 64 / 8 + 1) →
      p = (x / 16, y / 64, x % 16, y % 64 % 8, y % 64 / 8 + 1) := by
    intro p hp heq
    rcases p with ⟨bx, gy, tx, ty, i⟩
    rw [colsWriteList_mem] at hp
    dsimp only at hp
    obtain ⟨h1, h2, h3, h4, h5, h6⟩ := hp
    rw [haddr] at heq
    simp only [colsWriteAddr, COLUMNS_RESULT_STEPS, COLUMNS_BLOCKDIM_Y,
      COLUMNS_BLOCKDIM_X] at heq
    have hcol : bx * 16 + tx < W := by omega
    obtain ⟨hyy, hxx⟩ := addr_decomp hcol hx heq
    simp only [Prod.mk.injEq]
    refine ⟨by omega, by omega, by omega, by omega, by omega⟩
  have hval : colsDispatch R kern src dst W H (y * W + x)
      = colsWriteVal R kern src W H (x / 16, y / 64, x % 16, y % 64 % 8,
          y % 64 / 8 + 1) := by
    rw [← haddr]
    exact foldl_writes_read (colsWriteAddr W) (colsWriteVal R kern src W H)
      (colsWriteList W H) dst _ hmem huniq
  rw [hval]
  unfold colsWriteVal
  refine Finset.sum_congr rfl fun j hj => ?_
  obtain ⟨hj1, hj2⟩ := Finset.mem_Icc.mp hj
  congr 1
  rw [colsSData_eq src W H (x / 16) (y / 64) (x % 16)
    (((y % 64 % 8 : ℕ) : ℤ) + ((y % 64 / 8 + 1 : ℕ) : ℤ) * COLUMNS_BLOCKDIM_Y + j)
    (by simp only [COLUMNS_BLOCKDIM_Y]; push_cast; omega)
    (by simp only [COLUMNS_BLOCKDIM_Y]; push_cast; omega)
    (by omega)]
  have hrow : ((y / 64 : ℕ) : ℤ) * 64 - 8 +
      (((y % 64 % 8 : ℕ) : ℤ) + ((y % 64 / 8 + 1 : ℕ) : ℤ) * COLUMNS_BLOCKDIM_Y + j)
      = (y : ℤ) + j := by
    simp only [COLUMNS_BLOCKDIM_Y]; push_cast; omega
  have hcol : ((x / 16 : ℕ) : ℤ) * COLUMNS_BLOCKDIM_X + ((x % 16 : ℕ) : ℤ) = (x : ℤ) := by
    simp only [COLUMNS_BLOCKDIM_X]; push_cast; omega
  rw [hrow, hcol]
  rfl

/-! ## Claim theorems: separable convolution -/

/-- **C2.** For every image with `imageW` divisible by
`ROWS_RESULT_STEPS * ROWS_BLOCKDIM_X` and `imageH` divisible by
`ROWS_BLOCKDIM_Y`, the row convolution pass writes to every destination pixel
`(x, y)` the value `Σ_{j=-R}^{R} kernel[R-j] * src[y*pitch + x + j]`
(`pitch = imageW`), where any source read with column index `x + j` outside
`[0, imageW)` contributes zero.  `R ≤ ROWS_BLOCKDIM_X * ROWS_HALO_STEPS` is
the wrapper's own `assert`ed precondition on the fixed program constant
`KERNEL_RADIUS`. -/
theorem convolutionRows_pixel (R : ℕ) (kern : ℤ → ℚ) (src dst : ℕ → ℚ)
    (W H x y : ℕ) (hR : R ≤ 16) (hW : W % 128 = 0) (hH : H % 4 = 0)
    (hx : x < W) (hy : y < H) :
    convolutionRowsGPU R kern src dst W H = some (rowsDispatch R kern src dst W H) ∧
    rowsDispatch R kern src dst W H (y * W + x)
      = ∑ j in Finset.Icc (-(R : ℤ)) (R : ℤ),
          kern ((R : ℤ) - j) *
            (if 0 ≤ (x : ℤ) + j ∧ (x : ℤ) + j < (W : ℤ)
             then src ((y : ℤ) * (W : ℤ) + ((x : ℤ) + j)).toNat else 0) := by
  refine ⟨?_, rowsDispatch_pixel R kern src dst W H x y hR hW hH hx hy⟩
  unfold convolutionRowsGPU
  rw [if_pos]
  refine ⟨?_, ?_, ?_⟩
  · simp only [ROWS_BLOCKDIM_X, ROWS_HALO_STEPS]; omega
  · simp only [ROWS_RESULT_STEPS, ROWS_BLOCKDIM_X]; omega
  · simp only [ROWS_BLOCKDIM_Y]; omega

/-- Witness for **C2** at a minimal `128 × 4` image. -/
theorem convolutionRows_pixel_witness :
    convolutionRowsGPU 2 idKernel (fun _ => 0) (fun _ => 0) 128 4
      = some (rowsDispatch 2 idKernel (fun _ => 0) (fun _ => 0) 128 4) ∧
    rowsDispatch 2 idKernel (fun _ => 0) (fun _ => 0) 128 4 (0 * 128 + 0)
      = ∑ j in Finset.Icc (-(2 : ℤ)) (2 : ℤ),
          idKernel ((2 : ℤ) - j) *
            (if 0 ≤ ((0 : ℕ) : ℤ) + j ∧ ((0 : ℕ) : ℤ) + j < ((128 : ℕ) : ℤ)
             then (fun _ => (0 : ℚ)) ((((0 : ℕ) : ℤ)) * ((128 : ℕ) : ℤ)
               + (((0 : ℕ) : ℤ) + j)).toNat else 0) :=
  convolutionRows_pixel 2 idKernel (fun _ => 0) (fun _ => 0) 128 4 0 0
    (by decide) (by decide) (by decide) (by decide) (by decide)

/-- Counterexample to **C4** as stated: the preconditions are not unchecked —
on the violating `1 × 1` image both wrappers abort through their `assert`
(modelled as `none`) instead of proceeding and producing output. -/
theorem convolution_precondition_counterexample :
    convolutionRowsGPU 2 idKernel (fun _ => 0) (fun _ => 0) 1 1 = none ∧
    convolutionColumnsGPU 2 idKernel (fun _ => 0) (fun _ => 0) 1 1 = none := by
  exact ⟨rfl, rfl⟩

/-- **C4 (amended).** Violations of the convolution dimension preconditions
are checked at runtime: `convolutionRowsGPU` and `convolutionColumnsGPU`
`assert` the divisibility (and halo-coverage) conditions, so on every
violating input they abort (fail fast) rather than proceeding and silently
producing wrong output. -/
theorem convolution_precondition_checked (R : ℕ) (kern : ℤ → ℚ)
    (src dst : ℕ → ℚ) (W H : ℕ) :
    (¬ (ROWS_BLOCKDIM_X * ROWS_HALO_STEPS ≥ R ∧
        W % (ROWS_RESULT_STEPS * ROWS_BLOCKDIM_X) = 0 ∧ H % ROWS_BLOCKDIM_Y = 0) →
      convolutionRowsGPU R kern src dst W H = none) ∧
    (¬ (COLUMNS_BLOCKDIM_Y * COLUMNS_HALO_STEPS ≥ R ∧
        W % COLUMNS_BLOCKDIM_X = 0 ∧
        H % (COLUMNS_RESULT_STEPS * COLUMNS_BLOCKDIM_Y) = 0) →
      convolutionColumnsGPU R kern src dst W H = none) := by
  constructor
  · intro h
    unfold convolutionRowsGPU
    rw [if_neg h]
  · intro h
    unfold convolutionColumnsGPU
    rw [if_neg h]

/-- Witness for **C4 (amended)** on a `130 × 1` image (width not divisible by
`128`, height not divisible by `4`). -/
theorem convolution_precondition_checked_witness :
    convolutionRowsGPU 2 idKernel (fun _ => 0) (fun _ => 0) 130 1 = none :=
  (convolution_precondition_checked 2 idKernel (fun _ => 0) (fun _ => 0) 130 1).1
    (by decide)

/-- **C6.** For every input image satisfying the divisibility preconditions,
convolving with the identity kernel `[0,0,1,0,0]` (`KERNEL_RADIUS = 2`)
reproduces the input exactly: the row pass alone and the column pass alone
each write a destination equal, element for element, to the source. -/
theorem identity_kernel_roundtrip (src dst1 dst2 : ℕ → ℚ) (W H x y : ℕ)
    (hW : W % 128 = 0) (hH : H % 64 = 0) (hx : x < W) (hy : y < H) :
    rowsDispatch 2 idKernel src dst1 W H (y * W + x) = src (y * W + x) ∧
    colsDispatch 2 idKernel src dst2 W H (y * W + x) = src (y * W + x) := by
  constructor
  · rw [rowsDispatch_pixel 2 idKernel src dst1 W H x y (by omega) hW (by omega) hx hy]
    rw [Finset.sum_eq_single_of_mem 0 (by decide)
      (fun b _ hb => by
        unfold idKernel
        rw [if_neg (by omega), zero_mul])]
    unfold idKernel
    rw [if_pos (show ((2 : ℕ) : ℤ) - 0 = 2 by decide), one_mul,
      if_pos (show (0 : ℤ) ≤ (x : ℤ) + 0 ∧ (x : ℤ) + 0 < (W : ℤ) by constructor <;> omega)]
    congr 1
  · rw [colsDispatch_pixel 2 idKernel src dst2 W H x y (by omega) (by omega)
      (by omega) hx hy]
    rw [Finset.sum_eq_single_of_mem 0 (by decide)
      (fun b _ hb => by
        unfold idKernel
        rw [if_neg (by omega), zero_mul])]
    unfold idKernel
    rw [if_pos (show ((2 : ℕ) : ℤ) - 0 = 2 by decide), one_mul,
      if_pos (show (0 : ℤ) ≤ (y : ℤ) + 0 ∧ (y : ℤ) + 0 < (H : ℤ) by constructor <;> omega)]
    congr 1

/-- Witness for **C6** at a `128 × 64` image with the source reading `3`
everywhere. -/
theorem identity_kernel_roundtrip_witness :
    rowsDispatch 2 idKernel (fun _ => 3) (fun _ => 0) 128 64 (1 * 128 + 1)
      = (fun _ => (3 : ℚ)) (1 * 128 + 1) ∧
    colsDispatch 2 idKernel (fun _ => 3) (fun _ => 0) 128 64 (1 * 128 + 1)
      = (fun _ => (3 : ℚ)) (1 * 128 + 1) :=
  identity_kernel_roundtrip (fun _ => 3) (fun _ => 0) (fun _ => 0) 128 64 1 1
    (by decide) (by decide) (by decide) (by decide)
